import Mathlib

set_option linter.unusedSectionVars false

/-!
Verification of the crossword CSP solver in `HW3/crossword/generate.py`
(class `CrosswordCreator`).

The solver is shallowly embedded: Python `set`s become Lean `List`s (with a
fixed canonical iteration order standing in for Python's unspecified set
order), Python `dict`s become association lists, the mutable field
`self.domains` becomes an explicitly threaded value of type `Domains`,
Python exceptions become the `none` case of `Option`-valued results, and the
unbounded recursion of `ac3`'s worklist loop and `backtrack` becomes
structural recursion on an explicit fuel argument, with the canonical fuel
chosen (and proved, where claims need it) large enough that the real
executions never exhaust it.  Python string indexing `w[i]` is embedded as
total indexing with a default character (`charAt`); every execution reached
by the claims keeps indices in bounds.
-/

namespace CrosswordCSP

/-- A vocabulary word, embedded as its list of characters. -/
abbrev Word := List Char

/-- Modelled from the spec: the external structure model (`Crossword` in
`crossword.py`, which is outside `src/`).  Per spec section 6 it supplies,
read-only: the variable list `vars` (source attribute `variables`), the vocabulary `words`, each variable's `length`,
and `overlaps[(x, y)]`, an optional pair of indices that is symmetric
(spec section 3: one unordered pair of indices per intersecting pair) and
absent for a variable with itself.  `V` is the type of `Variable` identities
(spec section 3: immutable, compared by value). -/
structure Crossword (V : Type) [DecidableEq V] where
  vars : List V
  words : List Word
  length : V → Nat
  overlaps : V → V → Option (Nat × Nat)
  overlaps_symm : ∀ x y i j, overlaps x y = some (i, j) → overlaps y x = some (j, i)
  overlaps_irrefl : ∀ x, overlaps x x = none

variable {V : Type} [DecidableEq V]

/-- Python `w[i]` embedded as total indexing with a default character. -/
def charAt (w : Word) (i : Nat) : Char := w.getD i ' '

/-- Modelled from the spec: `Crossword.neighbors(v)` (section 6: all
variables sharing a cell with `v`; a pair shares a cell exactly when its
`overlaps` entry is present). -/
def neighbors (cw : Crossword V) (x : V) : List V :=
  cw.vars.filter (fun y => y != x && (cw.overlaps x y).isSome)

/-- The domain store `self.domains`: for each variable, the list of words
still considered possible (a Python set, embedded with a fixed order). -/
abbrev Domains (V : Type) := V → List Word

/-- The `self.domains` initialised by `CrosswordCreator.__init__`:
`{var: self.crossword.words.copy() for var in self.crossword.variables}`. -/
def initialDomains (cw : Crossword V) : Domains V := fun _ => cw.words

/-- `CrosswordCreator.enforce_node_consistency`: for each variable keep
exactly the words whose length equals the variable's length. -/
def enforce_node_consistency (cw : Crossword V) (d : Domains V) : Domains V :=
  fun v => (d v).filter (fun w => w.length == cw.length v)

/-- `CrosswordCreator.revise(x, y)`.  The source first unpacks
`self.crossword.overlaps[x, y]`; when that entry is `None` the unpacking
raises a `TypeError`, embedded as the result `none`.  Otherwise it removes
from `domains[x]` every word with no matching word in `domains[y]` at the
overlap indices and reports whether anything was removed. -/
def revise (cw : Crossword V) (d : Domains V) (x y : V) :
    Option (Bool × Domains V) :=
  match cw.overlaps x y with
  | none => none
  | some (fi, si) =>
    let to_remove : List Word :=
      (d x).filter (fun wx => (d y).all (fun wy => !(charAt wx fi == charAt wy si)))
    some (!to_remove.isEmpty,
      fun v => if v = x then (d v).filter (fun w => !to_remove.contains w) else d v)

/-- Total number of candidate words over all variables (with multiplicity
over the `variables` list); the measure that shrinks at every successful
revision. -/
def totalSize (cw : Crossword V) (d : Domains V) : Nat :=
  (cw.vars.map (fun v => (d v).length)).sum

/-- The worklist loop of `CrosswordCreator.ac3`, with explicit fuel.
Result `none` models a raised exception or exhausted fuel (the canonical
fuel below is proved sufficient); `some (false, d)` is the early return on
an emptied domain; `some (true, d)` is normal completion. -/
def ac3_fuel (cw : Crossword V) : Nat → Domains V → List (V × V) → Option (Bool × Domains V)
  | 0 => fun _ _ => none
  | fuel + 1 => fun d arcs =>
    match arcs with
    | [] => some (true, d)
    | (x, y) :: rest =>
      match revise cw d x y with
      | none => none
      | some (changed, d2) =>
        if changed then
          if (d2 x).length = 0 then some (false, d2)
          else ac3_fuel cw fuel d2
            (rest ++ ((neighbors cw x).filter (fun z => z != y)).map (fun z => (z, x)))
        else ac3_fuel cw fuel d2 rest

/-- Fuel sufficient for `ac3_fuel` to terminate on its own (each step either
shortens the worklist or strictly shrinks `totalSize` while appending at
most `variables.length` arcs). -/
def ac3Bound (cw : Crossword V) (d : Domains V) (arcs : List (V × V)) : Nat :=
  arcs.length + totalSize cw d * (cw.vars.length + 1) + 1

/-- `CrosswordCreator.ac3(arcs)`: with `arcs = none` the worklist starts
from all arcs `(x, y)` with `y` a neighbor of `x`; otherwise from the given
list.  Runs the worklist loop with the canonical (sufficient) fuel. -/
def ac3 (cw : Crossword V) (arcs : Option (List (V × V))) (d : Domains V) :
    Option (Bool × Domains V) :=
  let arcs0 : List (V × V) :=
    match arcs with
    | none => cw.vars.flatMap (fun x => (neighbors cw x).map (fun y => (x, y)))
    | some l => l
  ac3_fuel cw (ac3Bound cw d arcs0) d arcs0

/-- A (partial) assignment `Variable → word`: a Python dict embedded as an
association list in insertion order. -/
abbrev Assignment (V : Type) := List (V × Word)

/-- The key list of an assignment (`assignment.keys()`). -/
def keys (a : Assignment V) : List V := a.map Prod.fst

/-- Dict lookup `assignment[v]`. -/
def lookupA (a : Assignment V) (v : V) : Option Word :=
  match a with
  | [] => none
  | (k, w) :: rest => if k = v then some w else lookupA rest v

/-- Dict update `d[v] = w`: replace in place if the key is present,
otherwise append (Python dicts keep insertion order). -/
def dictInsert (a : Assignment V) (v : V) (w : Word) : Assignment V :=
  if (keys a).contains v then a.map (fun p => if p.1 = v then (v, w) else p)
  else a ++ [(v, w)]

/-- Dict removal `d.pop(v, None)`. -/
def dictPop (a : Assignment V) (v : V) : Assignment V :=
  a.filter (fun p => p.1 != v)

/-- `CrosswordCreator.assignment_complete`:
`set(assignment.keys()) == self.crossword.variables`. -/
def assignment_complete (cw : Crossword V) (a : Assignment V) : Bool :=
  (keys a).all (fun v => cw.vars.contains v) &&
    cw.vars.all (fun v => (keys a).contains v)

/-- `CrosswordCreator.consistent(assignment)`: all assigned words pairwise
distinct (`len(words) == len(set(words))`), each of the correct length, and
agreeing with every assigned neighbor at the overlap indices. -/
def consistent (cw : Crossword V) (a : Assignment V) : Bool :=
  ((a.map Prod.snd).dedup.length == (a.map Prod.snd).length) &&
  a.all (fun p =>
    (p.2.length == cw.length p.1) &&
    (neighbors cw p.1).all (fun n =>
      if (keys a).contains n then
        match cw.overlaps p.1 n with
        | some (i, j) => charAt p.2 i == charAt ((lookupA a n).getD []) j
        | none => true          -- unreachable: `n` is a neighbor of `p.1`
      else true))

/-- The inner helper `count_conflicts(word)` of
`CrosswordCreator.order_domain_values`: over every unassigned neighbor and
every word in that neighbor's domain, count the neighbor words that clash at
the overlap indices. -/
def count_conflicts (cw : Crossword V) (d : Domains V) (a : Assignment V)
    (var : V) (word : Word) : Nat :=
  (((neighbors cw var).filter (fun n => !(keys a).contains n)).map (fun n =>
    match cw.overlaps var n with
    | some (wi, ni) =>
        ((d n).filter (fun nw => !(charAt word wi == charAt nw ni))).length
    | none => 0)).sum           -- unreachable: `n` is a neighbor of `var`

/-- `CrosswordCreator.order_domain_values`:
`sorted(list(self.domains[var]), key=count_conflicts)`.  Python's `sorted`
is a stable sort ascending by the key; a stable sort's output is uniquely
determined by the key and the input order, so the (stable, structural)
insertion sort is the same function. -/
def order_domain_values (cw : Crossword V) (d : Domains V) (var : V)
    (a : Assignment V) : List Word :=
  List.insertionSort (fun w1 w2 =>
    count_conflicts cw d a var w1 ≤ count_conflicts cw d a var w2) (d var)

/-- The first element of a list attaining the minimal key: the value of
`sorted(l, key=key)[0]` under Python's stable sort (`none` embeds the
`IndexError` on an empty list). -/
def firstMinBy (key : V → Nat) : List V → Option V
  | [] => none
  | v :: rest =>
    match firstMinBy key rest with
    | none => some v
    | some m => if key v ≤ key m then some v else some m

/-- `CrosswordCreator.select_unassigned_variable`:
`sorted(unassigned, key=lambda var: len(self.domains[var]))[0]`, where
`unassigned` is `variables` minus the assigned keys (the `variables` list
order stands in for Python's set iteration order). -/
def select_unassigned_variable (cw : Crossword V) (d : Domains V)
    (a : Assignment V) : Option V :=
  firstMinBy (fun v => (d v).length)
    (cw.vars.filter (fun v => !(keys a).contains v))

/-- Python truthiness of `result` in `if result:`: `None` and the empty
dict are falsy. -/
def pyTruthy (r : Option (Assignment V)) : Bool :=
  match r with
  | none => false
  | some a => !a.isEmpty

/-- The `for value in ...:` loop body of `CrosswordCreator.backtrack`,
abstracted over the recursive call.  Each iteration copies and extends the
assignment, runs the localized `ac3` (mutating the threaded domain store),
tests `consistent` and the inference flag, and recurses; the final
`new_assignment.pop(var, None)` of the source only mutates the local copy
and is therefore without effect here.  Result `none` models a propagated
exception or exhausted fuel. -/
def try_values (cw : Crossword V)
    (recurse : Domains V → Assignment V → Option (Option (Assignment V) × Domains V))
    (var : V) (a : Assignment V) :
    List Word → Domains V → Option (Option (Assignment V) × Domains V)
  | [], d => some (none, d)
  | value :: rest, d =>
    let new_assignment := dictInsert a var value
    match ac3 cw (some ((neighbors cw var).map (fun n => (n, var)))) d with
    | none => none
    | some (inferences, d2) =>
      if consistent cw new_assignment && inferences then
        match recurse d2 new_assignment with
        | none => none
        | some (result, d3) =>
          if pyTruthy result then some (result, d3)
          else try_values cw recurse var a rest d3
      else try_values cw recurse var a rest d2

/-- `CrosswordCreator.backtrack(assignment)` with explicit fuel (one unit
per recursive call; the canonical fuel below always suffices).  The threaded
second component is the mutable field `self.domains`.  Result `none` models
a raised exception (`select` on an empty list) or exhausted fuel;
`some (none, d)` is the explicit failure `return None`. -/
def backtrack_fuel (cw : Crossword V) :
    Nat → Domains V → Assignment V → Option (Option (Assignment V) × Domains V)
  | 0 => fun _ _ => none
  | fuel + 1 => fun d a =>
    if assignment_complete cw a then some (some a, d)
    else
      match select_unassigned_variable cw d a with
      | none => none
      | some var =>
        try_values cw (backtrack_fuel cw fuel) var a
          (order_domain_values cw d var a) d

/-- `CrosswordCreator.backtrack` at its canonical fuel (recursion depth is
bounded by the number of unassigned variables, hence by
`variables.length`). -/
def backtrack (cw : Crossword V) (d : Domains V) (a : Assignment V) :
    Option (Option (Assignment V) × Domains V) :=
  backtrack_fuel cw (cw.vars.length + 1) d a

/-- `CrosswordCreator.solve`, also returning the final `self.domains`:
enforce node consistency, run global `ac3` (its Boolean result is discarded
by the source), then backtrack from the empty assignment.  Outer `none`
models a raised exception. -/
def solve_full (cw : Crossword V) :
    Option (Option (Assignment V) × Domains V) :=
  let d1 := enforce_node_consistency cw (initialDomains cw)
  match ac3 cw none d1 with
  | none => none
  | some (_, d2) => backtrack cw d2 []

/-- The domain store just before the search phase of `solve` (after node
consistency and the global `ac3` pass). -/
def pre_search_domains (cw : Crossword V) : Option (Domains V) :=
  (ac3 cw none (enforce_node_consistency cw (initialDomains cw))).map Prod.snd

/-- `CrosswordCreator.solve`'s return value proper. -/
def solve (cw : Crossword V) : Option (Option (Assignment V)) :=
  (solve_full cw).map Prod.fst

/-! ## A heap model of `backtrack` for the dict-mutation claim

Python dicts are mutable heap objects.  To state that `backtrack` never
mutates the dict passed to it, this second embedding of the same source
makes the heap explicit: a store of dict objects addressed by allocation
index, where `assignment.copy()` allocates a fresh cell and
`new_assignment[var] = value` / `new_assignment.pop(var, None)` mutate the
copy's cell in place.  `backtrack` receives a reference to the caller's
dict. -/

/-- The heap of dict objects, addressed by allocation index. -/
abbrev Store (V : Type) := List (Assignment V)

/-- Dereference a dict. -/
def storeGet (st : Store V) (ref : Nat) : Assignment V := st.getD ref []

/-- Python truthiness of `result` when results are dict references. -/
def pyTruthyRef (st : Store V) (r : Option Nat) : Bool :=
  match r with
  | none => false
  | some ref => !(storeGet st ref).isEmpty

/-- The candidate loop of `backtrack`, on the heap model.  Each iteration
allocates `new_assignment` as a fresh copy of the caller's dict extended
with the tried value (`copy()` then `[var] = value`), and on a failed branch
executes `new_assignment.pop(var, None)` in place on that fresh cell. -/
def try_values_st (cw : Crossword V)
    (recurse : Store V → Domains V → Nat → Option (Option Nat × Domains V × Store V))
    (var : V) (ref : Nat) :
    List Word → Store V → Domains V → Option (Option Nat × Domains V × Store V)
  | [], st, d => some (none, d, st)
  | value :: rest, st, d =>
    let newRef := st.length
    let st1 := st ++ [dictInsert (storeGet st ref) var value]
    match ac3 cw (some ((neighbors cw var).map (fun n => (n, var)))) d with
    | none => none
    | some (inferences, d2) =>
      if consistent cw (storeGet st1 newRef) && inferences then
        match recurse st1 d2 newRef with
        | none => none
        | some (result, d3, st2) =>
          if pyTruthyRef st2 result then some (result, d3, st2)
          else
            try_values_st cw recurse var ref rest
              (st2.set newRef (dictPop (storeGet st2 newRef) var)) d3
      else try_values_st cw recurse var ref rest st1 d2

/-- `CrosswordCreator.backtrack` on the heap model (same control flow as
`backtrack_fuel`; the base case returns the caller's own reference, as the
source returns the same dict object). -/
def backtrack_st (cw : Crossword V) :
    Nat → Store V → Domains V → Nat → Option (Option Nat × Domains V × Store V)
  | 0 => fun _ _ _ => none
  | fuel + 1 => fun st d ref =>
    if assignment_complete cw (storeGet st ref) then some (some ref, d, st)
    else
      match select_unassigned_variable cw d (storeGet st ref) with
      | none => none
      | some var =>
        try_values_st cw (backtrack_st cw fuel) var ref
          (order_domain_values cw d var (storeGet st ref)) st d

/-! ## Specification-level predicates -/

/-- The arc `(x, y)` is consistent in `d`: every word in `d x` has a
partner in `d y` agreeing at the overlap indices (vacuous without an
overlap). -/
def ArcOKPair (cw : Crossword V) (d : Domains V) (x y : V) : Prop :=
  ∀ p ∈ cw.overlaps x y, ∀ w ∈ d x, ∃ w2 ∈ d y, charAt w p.1 = charAt w2 p.2

/-- The domain store is arc consistent: for every ordered pair of structure
variables with an overlap, every word in the first domain has a partner in
the second agreeing at the overlap indices. -/
def ArcConsistentD (cw : Crossword V) (d : Domains V) : Prop :=
  ∀ x ∈ cw.vars, ∀ y ∈ cw.vars, ArcOKPair cw d x y

/-- The AC-3 worklist invariant: every overlapping pair of distinct
structure variables is either still enqueued or already consistent. -/
def AC3Inv (cw : Crossword V) (d : Domains V) (arcs : List (V × V)) : Prop :=
  ∀ x ∈ cw.vars, ∀ y ∈ cw.vars, x ≠ y → (cw.overlaps x y).isSome = true →
    (x, y) ∈ arcs ∨ ArcOKPair cw d x y

instance (cw : Crossword V) (d : Domains V) (x y : V) :
    Decidable (ArcOKPair cw d x y) := by
  unfold ArcOKPair
  infer_instance

instance (cw : Crossword V) (d : Domains V) :
    Decidable (ArcConsistentD cw d) := by
  unfold ArcConsistentD
  infer_instance

/-- Well-formed worklist: each arc joins two distinct structure variables
that overlap.  Every worklist the program ever builds satisfies this. -/
def ArcsOK (cw : Crossword V) (arcs : List (V × V)) : Prop :=
  ∀ p ∈ arcs, p.1 ∈ cw.vars ∧ p.2 ∈ cw.vars ∧ p.1 ≠ p.2 ∧
    (cw.overlaps p.1 p.2).isSome = true

/-- A total satisfying assignment in the sense of claim C3: every structure
variable gets a vocabulary word of matching length, distinct variables get
distinct words, and all overlap constraints hold. -/
def Sol (cw : Crossword V) (s : V → Word) : Prop :=
  (∀ v ∈ cw.vars, s v ∈ cw.words ∧ (s v).length = cw.length v) ∧
  (∀ x ∈ cw.vars, ∀ y ∈ cw.vars, x ≠ y → s x ≠ s y) ∧
  (∀ x ∈ cw.vars, ∀ y ∈ cw.vars, ∀ p ∈ cw.overlaps x y,
    charAt (s x) p.1 = charAt (s y) p.2)

instance (cw : Crossword V) (s : V → Word) : Decidable (Sol cw s) := by
  unfold Sol
  infer_instance

/-- The domain store still contains the solution `s` everywhere. -/
def Support (cw : Crossword V) (d : Domains V) (s : V → Word) : Prop :=
  ∀ v ∈ cw.vars, s v ∈ d v

/-- Every domain is drawn from the vocabulary. -/
def DomSub (cw : Crossword V) (d : Domains V) : Prop :=
  ∀ v, d v ⊆ cw.words

/-- Every assigned word is a vocabulary word. -/
def AVal (cw : Crossword V) (a : Assignment V) : Prop :=
  ∀ p ∈ a, p.2 ∈ cw.words

/-- The partial assignment follows the solution `s` on structure
variables. -/
def Compat (cw : Crossword V) (a : Assignment V) (s : V → Word) : Prop :=
  ∀ p ∈ a, p.1 ∈ cw.vars ∧ p.2 = s p.1

/-- Number of structure variables not yet assigned. -/
def unassignedLen (cw : Crossword V) (a : Assignment V) : Nat :=
  (cw.vars.filter (fun v => !(keys a).contains v)).length

/-! ## Concrete instances used to witness the theorems -/

def wTEN : Word := ['T', 'E', 'N']

def wNET : Word := ['N', 'E', 'T']

def wAB : Word := ['a', 'b']

def wCD : Word := ['c', 'd']

/-- A solvable two-variable crossing: `vars 0` and `vars 1`, both of length
3, sharing `vars0[2] == vars1[0]`, vocabulary `TEN`/`NET`. -/
def cwA : Crossword (Fin 2) where
  vars := [0, 1]
  words := [wTEN, wNET]
  length := fun _ => 3
  overlaps := fun x y =>
    match x.val, y.val with
    | 0, 1 => some (2, 0)
    | 1, 0 => some (0, 2)
    | _, _ => none
  overlaps_symm := by
    intro x y i j h
    fin_cases x <;> fin_cases y <;> simp_all
  overlaps_irrefl := by decide

def dA : Domains (Fin 2) := fun _ => [wTEN, wNET]

def sA : Fin 2 → Word := fun v => if v = 0 then wTEN else wNET

/-- One variable of length 1 and a vocabulary whose only word has length 2:
no word matches the variable's length. -/
def cwB : Crossword (Fin 1) where
  vars := [0]
  words := [wAB]
  length := fun _ => 1
  overlaps := fun _ _ => none
  overlaps_symm := by intro x y i j h; exact Option.noConfusion h
  overlaps_irrefl := fun _ => rfl

/-- Two variables that do not intersect. -/
def cwC : Crossword (Fin 2) where
  vars := [0, 1]
  words := [wAB]
  length := fun _ => 2
  overlaps := fun _ _ => none
  overlaps_symm := by intro x y i j h; exact Option.noConfusion h
  overlaps_irrefl := fun _ => rfl

def dC : Domains (Fin 2) := fun _ => [wAB]

/-- Three variables with equal domain sizes where variable 0 has no
neighbor while variables 1 and 2 intersect: a tie on domain size that the
degree heuristic should break in favor of 1 or 2. -/
def cwD : Crossword (Fin 3) where
  vars := [0, 1, 2]
  words := [wAB, wCD]
  length := fun _ => 2
  overlaps := fun x y =>
    match x.val, y.val with
    | 1, 2 => some (0, 0)
    | 2, 1 => some (0, 0)
    | _, _ => none
  overlaps_symm := by
    intro x y i j h
    fin_cases x <;> fin_cases y <;>
      first
        | exact Option.noConfusion h
        | (have h2 := Option.some.inj h
           rw [Prod.ext_iff] at h2
           obtain ⟨rfl, rfl⟩ := h2
           rfl)
  overlaps_irrefl := by decide

def dD : Domains (Fin 3) := fun _ => [wAB, wCD]

/-! ## Lemmas about `revise` -/

theorem revise_isSome (cw : Crossword V) (d : Domains V) (x y : V)
    (h : (cw.overlaps x y).isSome = true) : (revise cw d x y).isSome = true := by
  unfold revise
  cases ho : cw.overlaps x y with
  | none => rw [ho] at h; cases h
  | some p => cases p; rfl

theorem revise_none (cw : Crossword V) (d : Domains V) (x y : V)
    (h : cw.overlaps x y = none) : revise cw d x y = none := by
  unfold revise; rw [h]

/-- Shape of a successful revision: the flag, the new domain at `x`, and
that all other domains are untouched. -/
theorem revise_some_elim (cw : Crossword V) (d : Domains V) (x y : V)
    (i j : Nat) (b : Bool) (d2 : Domains V)
    (ho : cw.overlaps x y = some (i, j))
    (h : revise cw d x y = some (b, d2)) :
    (b = !((d x).filter (fun wx =>
        (d y).all (fun wy => !(charAt wx i == charAt wy j)))).isEmpty) ∧
    d2 = fun v => if v = x then
        (d v).filter (fun w => !((d x).filter (fun wx =>
          (d y).all (fun wy => !(charAt wx i == charAt wy j)))).contains w)
      else d v := by
  unfold revise at h
  rw [ho] at h
  simp only [Option.some.injEq, Prod.mk.injEq] at h
  exact ⟨h.1.symm, h.2.symm⟩

theorem revise_apply_other (cw : Crossword V) (d : Domains V) (x y v : V)
    (b : Bool) (d2 : Domains V)
    (h : revise cw d x y = some (b, d2)) (hv : v ≠ x) : d2 v = d v := by
  unfold revise at h
  cases ho : cw.overlaps x y with
  | none => rw [ho] at h; cases h
  | some p =>
    cases p with
    | mk i j =>
      rw [ho] at h
      simp only [Option.some.injEq, Prod.mk.injEq] at h
      rw [← h.2]
      simp [hv]

/-- The revised domain of `x` explicitly. -/
theorem revise_apply_x (cw : Crossword V) (d : Domains V) (x y : V)
    (i j : Nat) (b : Bool) (d2 : Domains V)
    (ho : cw.overlaps x y = some (i, j))
    (h : revise cw d x y = some (b, d2)) :
    d2 x = (d x).filter (fun w => !((d x).filter (fun wx =>
      (d y).all (fun wy => !(charAt wx i == charAt wy j)))).contains w) := by
  obtain ⟨-, hd⟩ := revise_some_elim cw d x y i j b d2 ho h
  rw [hd]
  simp

/-- Membership in the revised domain of `x`: the word survived iff it was
there and has a partner in the (input) domain of `y`. -/
theorem revise_mem_iff (cw : Crossword V) (d : Domains V) (x y : V)
    (i j : Nat) (b : Bool) (d2 : Domains V)
    (ho : cw.overlaps x y = some (i, j))
    (h : revise cw d x y = some (b, d2)) (w : Word) :
    w ∈ d2 x ↔ w ∈ d x ∧ ∃ w2 ∈ d y, charAt w i = charAt w2 j := by
  rw [revise_apply_x cw d x y i j b d2 ho h, List.mem_filter]
  set rem := (d x).filter (fun wx =>
    (d y).all (fun wy => !(charAt wx i == charAt wy j))) with hremdef
  have hrem : ∀ u : Word, u ∈ rem ↔
      (u ∈ d x ∧ ∀ w2 ∈ d y, charAt u i ≠ charAt w2 j) := by
    intro u
    rw [hremdef, List.mem_filter, List.all_eq_true]
    constructor
    · rintro ⟨h1, h2⟩
      exact ⟨h1, fun w2 hw2 => by simpa using h2 w2 hw2⟩
    · rintro ⟨h1, h2⟩
      exact ⟨h1, fun w2 hw2 => by simpa using h2 w2 hw2⟩
  constructor
  · rintro ⟨hw, hc⟩
    refine ⟨hw, ?_⟩
    by_contra hno
    push_neg at hno
    have hm : w ∈ rem := (hrem w).mpr ⟨hw, hno⟩
    exact absurd (List.elem_iff.mpr hm) (by simpa using hc)
  · rintro ⟨hw, w2, hw2, hag⟩
    refine ⟨hw, ?_⟩
    have hnm : w ∉ rem := fun hmem => ((hrem w).mp hmem).2 w2 hw2 hag
    cases hcw : rem.contains w with
    | false => simp [hcw]
    | true => exact absurd (List.elem_iff.mp hcw) hnm

theorem revise_subset (cw : Crossword V) (d : Domains V) (x y : V)
    (b : Bool) (d2 : Domains V)
    (h : revise cw d x y = some (b, d2)) (v : V) : d2 v ⊆ d v := by
  unfold revise at h
  cases ho : cw.overlaps x y with
  | none => rw [ho] at h; cases h
  | some p =>
    cases p with
    | mk i j =>
      rw [ho] at h
      simp only [Option.some.injEq, Prod.mk.injEq] at h
      rw [← h.2]
      by_cases hv : v = x
      · simp only [if_pos hv]
        exact (List.filter_sublist _).subset
      · simp [hv]

theorem revise_sublist_x (cw : Crossword V) (d : Domains V) (x y : V)
    (i j : Nat) (b : Bool) (d2 : Domains V)
    (ho : cw.overlaps x y = some (i, j))
    (h : revise cw d x y = some (b, d2)) : (d2 x).Sublist (d x) := by
  obtain ⟨-, hd⟩ := revise_some_elim cw d x y i j b d2 ho h
  rw [hd]
  simp only [if_pos rfl]
  exact List.filter_sublist _

/-- An unsuccessful revision leaves the store unchanged. -/
theorem revise_false (cw : Crossword V) (d : Domains V) (x y : V)
    (i j : Nat) (d2 : Domains V)
    (ho : cw.overlaps x y = some (i, j))
    (h : revise cw d x y = some (false, d2)) : d2 = d := by
  obtain ⟨hb, hd⟩ := revise_some_elim cw d x y i j false d2 ho h
  have hrem : ((d x).filter (fun wx =>
      (d y).all (fun wy => !(charAt wx i == charAt wy j)))) = [] := by
    cases hc : ((d x).filter (fun wx =>
        (d y).all (fun wy => !(charAt wx i == charAt wy j)))) with
    | nil => rfl
    | cons hd tl => rw [hc] at hb; simp at hb
  rw [hd]
  funext v
  by_cases hv : v = x
  · subst hv
    simp only [if_pos rfl, hrem]
    simp
  · simp [hv]

/-- A successful revision strictly shrinks the domain of `x`. -/
theorem revise_true_lt (cw : Crossword V) (d : Domains V) (x y : V)
    (i j : Nat) (d2 : Domains V)
    (ho : cw.overlaps x y = some (i, j))
    (h : revise cw d x y = some (true, d2)) :
    (d2 x).length < (d x).length := by
  obtain ⟨hb, -⟩ := revise_some_elim cw d x y i j true d2 ho h
  have hdx := revise_apply_x cw d x y i j true d2 ho h
  have hne : ((d x).filter (fun wx =>
      (d y).all (fun wy => !(charAt wx i == charAt wy j)))) ≠ [] := by
    intro hnil
    rw [hnil] at hb
    simp at hb
  obtain ⟨r, hr⟩ := List.exists_mem_of_ne_nil _ hne
  have hrx : r ∈ d x := (List.mem_filter.mp hr).1
  rw [hdx]
  apply List.length_filter_lt_length_iff_exists.mpr
  refine ⟨r, hrx, ?_⟩
  have hcr : ((d x).filter (fun wx =>
      (d y).all (fun wy => !(charAt wx i == charAt wy j)))).contains r = true :=
    List.elem_iff.mpr hr
  simp only [hcr, Bool.not_true, Bool.false_eq_true, not_false_eq_true]

/-- After any revision of `(x, y)`, every surviving word of `x` has a
partner in the domain of `y` (which, for `y ≠ x`, the revision did not
touch). -/
theorem revise_postcond (cw : Crossword V) (d : Domains V) (x y : V)
    (i j : Nat) (b : Bool) (d2 : Domains V)
    (ho : cw.overlaps x y = some (i, j)) (hxy : x ≠ y)
    (h : revise cw d x y = some (b, d2)) :
    ∀ w ∈ d2 x, ∃ w2 ∈ d2 y, charAt w i = charAt w2 j := by
  intro w hw
  obtain ⟨-, w2, hw2, hag⟩ := (revise_mem_iff cw d x y i j b d2 ho h w).mp hw
  have hy : d2 y = d y := revise_apply_other cw d x y y b d2 h (Ne.symm hxy)
  exact ⟨w2, hy ▸ hw2, hag⟩

theorem revise_overlap (cw : Crossword V) (d : Domains V) (x y : V)
    (b : Bool) (d2 : Domains V) (h : revise cw d x y = some (b, d2)) :
    ∃ i j, cw.overlaps x y = some (i, j) := by
  unfold revise at h
  cases ho : cw.overlaps x y with
  | none => rw [ho] at h; cases h
  | some p =>
    obtain ⟨i, j⟩ := p
    exact ⟨i, j, rfl⟩

theorem revise_length_le (cw : Crossword V) (d : Domains V) (x y : V)
    (b : Bool) (d2 : Domains V) (h : revise cw d x y = some (b, d2)) (v : V) :
    (d2 v).length ≤ (d v).length := by
  obtain ⟨i, j, ho⟩ := revise_overlap cw d x y b d2 h
  by_cases hv : v = x
  · subst hv
    exact (revise_sublist_x cw d v y i j b d2 ho h).length_le
  · rw [revise_apply_other cw d x y v b d2 h hv]

/-! ## The worklist measure -/

theorem sum_map_le (l : List V) (f g : V → Nat) (h : ∀ v, f v ≤ g v) :
    (l.map f).sum ≤ (l.map g).sum := by
  induction l with
  | nil => simp
  | cons v tl ih => simpa using Nat.add_le_add (h v) ih

theorem sum_map_lt (l : List V) (f g : V → Nat) (x : V) (hx : x ∈ l)
    (hlt : f x < g x) (h : ∀ v, f v ≤ g v) :
    (l.map f).sum < (l.map g).sum := by
  induction l with
  | nil => cases hx
  | cons v tl ih =>
    rcases List.mem_cons.mp hx with hv | hv
    · subst hv
      simpa using Nat.add_lt_add_of_lt_of_le hlt (sum_map_le tl f g h)
    · simpa using Nat.add_lt_add_of_le_of_lt (h v) (ih hv)

theorem totalSize_le (cw : Crossword V) (d d2 : Domains V)
    (h : ∀ v, (d2 v).length ≤ (d v).length) :
    totalSize cw d2 ≤ totalSize cw d :=
  sum_map_le cw.vars _ _ h

theorem totalSize_lt (cw : Crossword V) (d d2 : Domains V) (x : V)
    (hx : x ∈ cw.vars) (hlt : (d2 x).length < (d x).length)
    (h : ∀ v, (d2 v).length ≤ (d v).length) :
    totalSize cw d2 < totalSize cw d :=
  sum_map_lt cw.vars _ _ x hx hlt h

/-! ## Well-formed worklists -/

theorem mem_neighbors (cw : Crossword V) (x z : V) :
    z ∈ neighbors cw x ↔
      z ∈ cw.vars ∧ z ≠ x ∧ (cw.overlaps x z).isSome = true := by
  simp [neighbors, List.mem_filter, and_assoc]

theorem overlaps_isSome_symm (cw : Crossword V) (x y : V)
    (h : (cw.overlaps x y).isSome = true) :
    (cw.overlaps y x).isSome = true := by
  cases ho : cw.overlaps x y with
  | none => rw [ho] at h; cases h
  | some p => rw [cw.overlaps_symm x y p.1 p.2 (by rw [ho])]; rfl

theorem arcsOK_of_append (cw : Crossword V) (l1 l2 : List (V × V))
    (h1 : ArcsOK cw l1) (h2 : ArcsOK cw l2) : ArcsOK cw (l1 ++ l2) := by
  intro p hp
  rcases List.mem_append.mp hp with h | h
  · exact h1 p h
  · exact h2 p h

theorem arcsOK_tail (cw : Crossword V) (q : V × V) (rest : List (V × V))
    (h : ArcsOK cw (q :: rest)) : ArcsOK cw rest :=
  fun p hp => h p (List.mem_cons_of_mem q hp)

/-- The arcs re-enqueued by `ac3` after a successful revision of `x` are
well formed. -/
theorem arcsOK_requeue (cw : Crossword V) (x y : V) (hx : x ∈ cw.vars) :
    ArcsOK cw (((neighbors cw x).filter (fun z => z != y)).map
      (fun z => (z, x))) := by
  intro p hp
  obtain ⟨z, hz, hzp⟩ := List.mem_map.mp hp
  have hzn := List.mem_filter.mp hz
  obtain ⟨hzv, hzx, hzo⟩ := (mem_neighbors cw x z).mp hzn.1
  subst hzp
  exact ⟨hzv, hx, hzx, overlaps_isSome_symm cw x z hzo⟩

/-- The initial worklist of `ac3()` (all arcs) is well formed. -/
theorem arcsOK_init (cw : Crossword V) :
    ArcsOK cw (cw.vars.flatMap (fun x => (neighbors cw x).map (fun y => (x, y)))) := by
  intro p hp
  obtain ⟨x, hx, hmem⟩ := List.mem_flatMap.mp hp
  obtain ⟨y, hy, hyp⟩ := List.mem_map.mp hmem
  obtain ⟨hyv, hyx, hyo⟩ := (mem_neighbors cw x y).mp hy
  subst hyp
  exact ⟨hx, hyv, fun e => hyx e.symm, hyo⟩

/-- The seed arcs `(neighbor, var)` used by `backtrack`'s localized
inference are well formed. -/
theorem arcsOK_neighbor_arcs (cw : Crossword V) (var : V) (hv : var ∈ cw.vars) :
    ArcsOK cw ((neighbors cw var).map (fun n => (n, var))) := by
  intro p hp
  obtain ⟨n, hn, hnp⟩ := List.mem_map.mp hp
  obtain ⟨hnv, hnvar, hno⟩ := (mem_neighbors cw var n).mp hn
  subst hnp
  exact ⟨hnv, hv, hnvar, overlaps_isSome_symm cw var n hno⟩

/-! ## Lemmas about the `ac3` worklist loop -/

theorem ac3_fuel_zero (cw : Crossword V) (d : Domains V) (arcs : List (V × V)) :
    ac3_fuel cw 0 d arcs = none := rfl

theorem ac3_fuel_nil (cw : Crossword V) (n : Nat) (d : Domains V) :
    ac3_fuel cw (n + 1) d [] = some (true, d) := rfl

theorem ac3_fuel_cons_none (cw : Crossword V) (n : Nat) (d : Domains V)
    (x y : V) (rest : List (V × V)) (hr : revise cw d x y = none) :
    ac3_fuel cw (n + 1) d ((x, y) :: rest) = none := by
  simp only [ac3_fuel]
  rw [hr]

theorem ac3_fuel_cons_some (cw : Crossword V) (n : Nat) (d : Domains V)
    (x y : V) (rest : List (V × V)) (changed : Bool) (dr : Domains V)
    (hr : revise cw d x y = some (changed, dr)) :
    ac3_fuel cw (n + 1) d ((x, y) :: rest) =
      (if changed then
        (if (dr x).length = 0 then some (false, dr)
         else ac3_fuel cw n dr
           (rest ++ ((neighbors cw x).filter (fun z => z != y)).map
             (fun z => (z, x))))
       else ac3_fuel cw n dr rest) := by
  simp only [ac3_fuel]
  rw [hr]

theorem ac3_fuel_subset (cw : Crossword V) :
    ∀ (fuel : Nat) (d : Domains V) (arcs : List (V × V)) (b : Bool)
      (d2 : Domains V), ac3_fuel cw fuel d arcs = some (b, d2) →
      ∀ v, d2 v ⊆ d v := by
  intro fuel
  induction fuel with
  | zero => intro d arcs b d2 h; rw [ac3_fuel_zero] at h; cases h
  | succ n ih =>
    intro d arcs b d2 h v
    cases arcs with
    | nil =>
      rw [ac3_fuel_nil] at h
      simp only [Option.some.injEq, Prod.mk.injEq] at h
      rw [← h.2]
      exact List.Subset.refl _
    | cons q rest =>
      obtain ⟨x, y⟩ := q
      cases hr : revise cw d x y with
      | none => rw [ac3_fuel_cons_none cw n d x y rest hr] at h; cases h
      | some br =>
        obtain ⟨changed, dr⟩ := br
        rw [ac3_fuel_cons_some cw n d x y rest changed dr hr] at h
        have hsub := revise_subset cw d x y changed dr hr v
        cases changed with
        | true =>
          rw [if_pos rfl] at h
          by_cases hz : (dr x).length = 0
          · rw [if_pos hz] at h
            simp only [Option.some.injEq, Prod.mk.injEq] at h
            rw [← h.2]
            exact hsub
          · rw [if_neg hz] at h
            exact List.Subset.trans (ih dr _ b d2 h v) hsub
        | false =>
          rw [if_neg Bool.false_ne_true] at h
          exact List.Subset.trans (ih dr rest b d2 h v) hsub

theorem ac3_fuel_length_le (cw : Crossword V) :
    ∀ (fuel : Nat) (d : Domains V) (arcs : List (V × V)) (b : Bool)
      (d2 : Domains V), ac3_fuel cw fuel d arcs = some (b, d2) →
      ∀ v, (d2 v).length ≤ (d v).length := by
  intro fuel
  induction fuel with
  | zero => intro d arcs b d2 h; rw [ac3_fuel_zero] at h; cases h
  | succ n ih =>
    intro d arcs b d2 h v
    cases arcs with
    | nil =>
      rw [ac3_fuel_nil] at h
      simp only [Option.some.injEq, Prod.mk.injEq] at h
      rw [← h.2]
    | cons q rest =>
      obtain ⟨x, y⟩ := q
      cases hr : revise cw d x y with
      | none => rw [ac3_fuel_cons_none cw n d x y rest hr] at h; cases h
      | some br =>
        obtain ⟨changed, dr⟩ := br
        rw [ac3_fuel_cons_some cw n d x y rest changed dr hr] at h
        have hle := revise_length_le cw d x y changed dr hr v
        cases changed with
        | true =>
          rw [if_pos rfl] at h
          by_cases hz : (dr x).length = 0
          · rw [if_pos hz] at h
            simp only [Option.some.injEq, Prod.mk.injEq] at h
            rw [← h.2]
            exact hle
          · rw [if_neg hz] at h
            exact Nat.le_trans (ih dr _ b d2 h v) hle
        | false =>
          rw [if_neg Bool.false_ne_true] at h
          exact Nat.le_trans (ih dr rest b d2 h v) hle

/-- The canonical fuel is sufficient: with a well-formed worklist,
`ac3_fuel` neither raises nor runs out of fuel. -/
theorem ac3_fuel_isSome (cw : Crossword V) :
    ∀ (fuel : Nat) (d : Domains V) (arcs : List (V × V)),
      ArcsOK cw arcs →
      arcs.length + totalSize cw d * (cw.vars.length + 1) + 1 ≤ fuel →
      (ac3_fuel cw fuel d arcs).isSome = true := by
  intro fuel
  induction fuel with
  | zero => intro d arcs _ hb; omega
  | succ n ih =>
    intro d arcs hok hb
    cases arcs with
    | nil => rw [ac3_fuel_nil]; rfl
    | cons q rest =>
      obtain ⟨x, y⟩ := q
      obtain ⟨hxv, hyv, hxy, ho⟩ := hok (x, y) (List.mem_cons_self _ _)
      cases hr : revise cw d x y with
      | none =>
        have := revise_isSome cw d x y ho
        rw [hr] at this
        cases this
      | some br =>
        obtain ⟨changed, dr⟩ := br
        rw [ac3_fuel_cons_some cw n d x y rest changed dr hr]
        have hle := revise_length_le cw d x y changed dr hr
        have hT := totalSize_le cw d dr hle
        cases changed with
        | true =>
          rw [if_pos rfl]
          by_cases hz : (dr x).length = 0
          · rw [if_pos hz]; rfl
          · rw [if_neg hz]
            obtain ⟨i, j, hov⟩ := revise_overlap cw d x y true dr hr
            have hlt : totalSize cw dr < totalSize cw d :=
              totalSize_lt cw d dr x hxv
                (revise_true_lt cw d x y i j dr hov hr) hle
            apply ih
            · exact arcsOK_of_append cw rest _ (arcsOK_tail cw _ _ hok)
                (arcsOK_requeue cw x y hxv)
            · have hlen : (((neighbors cw x).filter (fun z => z != y)).map
                  (fun z => (z, x))).length ≤ cw.vars.length := by
                rw [List.length_map]
                exact Nat.le_trans (List.length_filter_le _ _)
                  (List.Sublist.length_le (List.filter_sublist _))
              rw [List.length_append]
              simp only [List.length_cons] at hb
              have h1 : totalSize cw dr * (cw.vars.length + 1) + cw.vars.length + 1
                  ≤ totalSize cw d * (cw.vars.length + 1) := by
                calc totalSize cw dr * (cw.vars.length + 1) + cw.vars.length + 1
                    = (totalSize cw dr + 1) * (cw.vars.length + 1) := by ring
                  _ ≤ totalSize cw d * (cw.vars.length + 1) :=
                      Nat.mul_le_mul_right _ hlt
              omega
        | false =>
          rw [if_neg Bool.false_ne_true]
          apply ih dr rest (arcsOK_tail cw _ _ hok)
          simp only [List.length_cons] at hb
          have hmul : totalSize cw dr * (cw.vars.length + 1)
              ≤ totalSize cw d * (cw.vars.length + 1) :=
            Nat.mul_le_mul_right _ hT
          omega

/-- A revision never removes a word of the global solution while the
solution is still supported everywhere. -/
theorem revise_support (cw : Crossword V) (s : V → Word) (d : Domains V)
    (x y : V) (b : Bool) (dr : Domains V)
    (hsol : Sol cw s) (hx : x ∈ cw.vars) (hy : y ∈ cw.vars)
    (hsup : Support cw d s) (hr : revise cw d x y = some (b, dr)) :
    Support cw dr s := by
  obtain ⟨i, j, ho⟩ := revise_overlap cw d x y b dr hr
  intro v hv
  by_cases hvx : v = x
  · subst hvx
    rw [revise_mem_iff cw d v y i j b dr ho hr]
    refine ⟨hsup v hv, s y, hsup y hy, ?_⟩
    exact hsol.2.2 v hv y hy (i, j) (Option.mem_def.mpr ho)
  · rw [revise_apply_other cw d x y v b dr hr hvx]
    exact hsup v hv

/-- While the domain store supports a global solution, the worklist loop
never reports an emptied domain and keeps supporting the solution. -/
theorem ac3_fuel_support (cw : Crossword V) (s : V → Word) (hsol : Sol cw s) :
    ∀ (fuel : Nat) (d : Domains V) (arcs : List (V × V)) (b : Bool)
      (d2 : Domains V), ArcsOK cw arcs → Support cw d s →
      ac3_fuel cw fuel d arcs = some (b, d2) →
      b = true ∧ Support cw d2 s := by
  intro fuel
  induction fuel with
  | zero => intro d arcs b d2 _ _ h; rw [ac3_fuel_zero] at h; cases h
  | succ n ih =>
    intro d arcs b d2 hok hsup h
    cases arcs with
    | nil =>
      rw [ac3_fuel_nil] at h
      simp only [Option.some.injEq, Prod.mk.injEq] at h
      exact ⟨h.1.symm, h.2 ▸ hsup⟩
    | cons q rest =>
      obtain ⟨x, y⟩ := q
      obtain ⟨hxv, hyv, hxy, ho⟩ := hok (x, y) (List.mem_cons_self _ _)
      cases hr : revise cw d x y with
      | none => rw [ac3_fuel_cons_none cw n d x y rest hr] at h; cases h
      | some br =>
        obtain ⟨changed, dr⟩ := br
        rw [ac3_fuel_cons_some cw n d x y rest changed dr hr] at h
        have hsup2 : Support cw dr s :=
          revise_support cw s d x y changed dr hsol hxv hyv hsup hr
        cases changed with
        | true =>
          rw [if_pos rfl] at h
          by_cases hz : (dr x).length = 0
          · exfalso
            have : s x ∈ dr x := hsup2 x hxv
            rw [List.length_eq_zero] at hz
            rw [hz] at this
            cases this
          · rw [if_neg hz] at h
            exact ih dr _ b d2
              (arcsOK_of_append cw rest _ (arcsOK_tail cw _ _ hok)
                (arcsOK_requeue cw x y hxv)) hsup2 h
        | false =>
          rw [if_neg Bool.false_ne_true] at h
          exact ih dr rest b d2 (arcsOK_tail cw _ _ hok) hsup2 h

/-- After a revision of the arc `(x, y)`, that arc is consistent. -/
theorem arcOKPair_of_revise (cw : Crossword V) (d : Domains V) (x y : V)
    (i j : Nat) (changed : Bool) (dr : Domains V)
    (hov : cw.overlaps x y = some (i, j)) (hxy : x ≠ y)
    (hr : revise cw d x y = some (changed, dr)) :
    ArcOKPair cw dr x y := by
  intro p hp w hw
  rw [Option.mem_def, hov] at hp
  have hpij : p = (i, j) := (Option.some.inj hp).symm
  subst hpij
  exact revise_postcond cw d x y i j changed dr hov hxy hr w hw

/-- One step of the AC-3 worklist preserves the invariant (successful
revision: the shrunken variable's incoming arcs are re-enqueued and the
reverse arc keeps its support). -/
theorem ac3Inv_step (cw : Crossword V) (d dr : Domains V) (x y : V)
    (rest : List (V × V)) (changed : Bool) (i j : Nat)
    (hxy : x ≠ y) (hov : cw.overlaps x y = some (i, j))
    (hr : revise cw d x y = some (changed, dr))
    (hinv : AC3Inv cw d ((x, y) :: rest)) :
    AC3Inv cw dr (rest ++ ((neighbors cw x).filter (fun z => z != y)).map
      (fun z => (z, x))) := by
  intro p hp q hq hpq hpqo
  by_cases hhead : p = x ∧ q = y
  · right
    obtain ⟨rfl, rfl⟩ := hhead
    exact arcOKPair_of_revise cw d p q i j changed dr hov hxy hr
  · rcases hinv p hp q hq hpq hpqo with hmem | hokp
    · rcases List.mem_cons.mp hmem with heq | hrest
      · exact absurd ⟨congrArg Prod.fst heq, congrArg Prod.snd heq⟩ hhead
      · left
        exact List.mem_append_left _ hrest
    · by_cases hqx : q = x
      · subst hqx
        by_cases hpy : p = y
        · -- the reverse arc (y, x): a removed word of x supported no word
          -- of y, so every word of y keeps its support
          subst hpy
          right
          intro pr hpr w hw
          rw [Option.mem_def] at hpr
          have hyx : cw.overlaps p q = some (j, i) :=
            cw.overlaps_symm q p i j hov
          rw [hyx] at hpr
          have hprji : pr = (j, i) := (Option.some.inj hpr).symm
          subst hprji
          have hdy : dr p = d p :=
            revise_apply_other cw d q p p changed dr hr hpq
          rw [hdy] at hw
          obtain ⟨w2, hw2, hag⟩ := hokp (j, i) (Option.mem_def.mpr hyx) w hw
          refine ⟨w2, ?_, hag⟩
          rw [revise_mem_iff cw d q p i j changed dr hov hr w2]
          exact ⟨hw2, w, hw, hag.symm⟩
        · -- any other incoming arc of x is re-enqueued
          left
          apply List.mem_append_right
          apply List.mem_map.mpr
          refine ⟨p, ?_, rfl⟩
          apply List.mem_filter.mpr
          refine ⟨?_, by simpa using hpy⟩
          exact (mem_neighbors cw q p).mpr
            ⟨hp, hpq, overlaps_isSome_symm cw p q hpqo⟩
      · -- the revision did not touch q, and only shrank p
        right
        intro pr hpr w hw
        have hwp : w ∈ d p := revise_subset cw d x y changed dr hr p hw
        obtain ⟨w2, hw2, hag⟩ := hokp pr hpr w hwp
        refine ⟨w2, ?_, hag⟩
        rw [revise_apply_other cw d x y q changed dr hr hqx]
        exact hw2

/-- The AC-3 worklist invariant at successful termination yields full arc
consistency. -/
theorem ac3_fuel_arcCons (cw : Crossword V) :
    ∀ (fuel : Nat) (d : Domains V) (arcs : List (V × V)) (d2 : Domains V),
      ArcsOK cw arcs → AC3Inv cw d arcs →
      ac3_fuel cw fuel d arcs = some (true, d2) →
      ArcConsistentD cw d2 := by
  intro fuel
  induction fuel with
  | zero => intro d arcs d2 _ _ h; rw [ac3_fuel_zero] at h; cases h
  | succ n ih =>
    intro d arcs d2 hok hinv h
    cases arcs with
    | nil =>
      rw [ac3_fuel_nil] at h
      simp only [Option.some.injEq, Prod.mk.injEq, true_and] at h
      subst h
      intro x hx y hy p hp w hw
      by_cases hxy : x = y
      · subst hxy
        rw [Option.mem_def, cw.overlaps_irrefl x] at hp
        cases hp
      · have hso : (cw.overlaps x y).isSome = true := by
          rw [Option.mem_def] at hp
          rw [hp]
          rfl
        rcases hinv x hx y hy hxy hso with habs | hokp
        · cases habs
        · exact hokp p hp w hw
    | cons q rest =>
      obtain ⟨x, y⟩ := q
      obtain ⟨hxv, hyv, hxy, ho⟩ := hok (x, y) (List.mem_cons_self _ _)
      cases hr : revise cw d x y with
      | none => rw [ac3_fuel_cons_none cw n d x y rest hr] at h; cases h
      | some br =>
        obtain ⟨changed, dr⟩ := br
        rw [ac3_fuel_cons_some cw n d x y rest changed dr hr] at h
        obtain ⟨i, j, hov⟩ := revise_overlap cw d x y changed dr hr
        cases changed with
        | true =>
          rw [if_pos rfl] at h
          by_cases hz : (dr x).length = 0
          · rw [if_pos hz] at h
            simp at h
          · rw [if_neg hz] at h
            exact ih dr _ d2
              (arcsOK_of_append cw rest _ (arcsOK_tail cw _ _ hok)
                (arcsOK_requeue cw x y hxv))
              (ac3Inv_step cw d dr x y rest true i j hxy hov hr hinv) h
        | false =>
          rw [if_neg Bool.false_ne_true] at h
          have hdr : dr = d := revise_false cw d x y i j dr hov hr
          subst hdr
          apply ih dr rest d2 (arcsOK_tail cw _ _ hok) ?_ h
          intro p hp q hq hpq hpqo
          by_cases hhead : p = x ∧ q = y
          · right
            obtain ⟨rfl, rfl⟩ := hhead
            exact arcOKPair_of_revise cw dr p q i j false dr hov hxy hr
          · rcases hinv p hp q hq hpq hpqo with hmem | hokp
            · rcases List.mem_cons.mp hmem with heq | hrest
              · exact absurd ⟨congrArg Prod.fst heq, congrArg Prod.snd heq⟩
                  hhead
              · left
                exact hrest
            · right
              exact hokp

/-- The full-worklist invariant holds initially: every overlapping pair of
distinct variables is enqueued. -/
theorem ac3Inv_init (cw : Crossword V) (d : Domains V) :
    AC3Inv cw d
      (cw.vars.flatMap (fun x => (neighbors cw x).map (fun y => (x, y)))) := by
  intro x hx y hy hxy hso
  left
  apply List.mem_flatMap.mpr
  refine ⟨x, hx, ?_⟩
  apply List.mem_map.mpr
  refine ⟨y, ?_, rfl⟩
  exact (mem_neighbors cw x y).mpr ⟨hy, fun e => hxy e.symm, hso⟩

/-- On an already arc-consistent store every revision is a no-op, so the
worklist loop finishes with the store unchanged. -/
theorem ac3_fuel_noop (cw : Crossword V) (d : Domains V)
    (hacd : ArcConsistentD cw d) :
    ∀ (fuel : Nat) (arcs : List (V × V)), ArcsOK cw arcs →
      arcs.length + 1 ≤ fuel →
      ac3_fuel cw fuel d arcs = some (true, d) := by
  intro fuel
  induction fuel with
  | zero => intro arcs _ hb; omega
  | succ n ih =>
    intro arcs hok hb
    cases arcs with
    | nil => exact ac3_fuel_nil cw n d
    | cons q rest =>
      obtain ⟨x, y⟩ := q
      obtain ⟨hxv, hyv, hxy, ho⟩ := hok (x, y) (List.mem_cons_self _ _)
      cases hoo : cw.overlaps x y with
      | none => rw [hoo] at ho; cases ho
      | some pij =>
        obtain ⟨i, j⟩ := pij
        cases hr : revise cw d x y with
        | none =>
          have := revise_isSome cw d x y ho
          rw [hr] at this
          cases this
        | some br =>
          obtain ⟨changed, dr⟩ := br
          rw [ac3_fuel_cons_some cw n d x y rest changed dr hr]
          have hchf : changed = false := by
            obtain ⟨hb2, -⟩ := revise_some_elim cw d x y i j changed dr hoo hr
            have hnil : ((d x).filter (fun wx =>
                (d y).all (fun wy => !(charAt wx i == charAt wy j)))) = [] := by
              apply List.filter_eq_nil_iff.mpr
              intro wx hwx
              obtain ⟨w2, hw2, hag⟩ :=
                hacd x hxv y hyv (i, j) (Option.mem_def.mpr hoo) wx hwx
              simp only [List.all_eq_true, Bool.not_eq_eq_eq_not, Bool.not_true,
                beq_eq_false_iff_ne, ne_eq, not_forall]
              refine ⟨w2, hw2, ?_⟩
              simp [hag]
            rw [hnil] at hb2
            simpa using hb2
          subst hchf
          rw [if_neg Bool.false_ne_true]
          have hdr : dr = d := revise_false cw d x y i j dr hoo hr
          subst hdr
          apply ih rest (arcsOK_tail cw _ _ hok)
          simp only [List.length_cons] at hb
          omega

/-- An early `false` return of the worklist loop exhibits an emptied
domain. -/
theorem ac3_fuel_false_empty (cw : Crossword V) :
    ∀ (fuel : Nat) (d : Domains V) (arcs : List (V × V)) (d2 : Domains V),
      ArcsOK cw arcs → ac3_fuel cw fuel d arcs = some (false, d2) →
      ∃ x ∈ cw.vars, d2 x = [] := by
  intro fuel
  induction fuel with
  | zero => intro d arcs d2 _ h; rw [ac3_fuel_zero] at h; cases h
  | succ n ih =>
    intro d arcs d2 hok h
    cases arcs with
    | nil =>
      rw [ac3_fuel_nil] at h
      simp at h
    | cons q rest =>
      obtain ⟨x, y⟩ := q
      obtain ⟨hxv, hyv, hxy, ho⟩ := hok (x, y) (List.mem_cons_self _ _)
      cases hr : revise cw d x y with
      | none => rw [ac3_fuel_cons_none cw n d x y rest hr] at h; cases h
      | some br =>
        obtain ⟨changed, dr⟩ := br
        rw [ac3_fuel_cons_some cw n d x y rest changed dr hr] at h
        cases changed with
        | true =>
          rw [if_pos rfl] at h
          by_cases hz : (dr x).length = 0
          · rw [if_pos hz] at h
            simp only [Option.some.injEq, Prod.mk.injEq, true_and] at h
            refine ⟨x, hxv, ?_⟩
            rw [← h]
            exact List.length_eq_zero.mp hz
          · rw [if_neg hz] at h
            exact ih dr _ d2
              (arcsOK_of_append cw rest _ (arcsOK_tail cw _ _ hok)
                (arcsOK_requeue cw x y hxv)) h
        | false =>
          rw [if_neg Bool.false_ne_true] at h
          exact ih dr rest d2 (arcsOK_tail cw _ _ hok) h

/-! ## Lemmas about `ac3` at its canonical fuel -/

theorem ac3_some_def (cw : Crossword V) (l : List (V × V)) (d : Domains V) :
    ac3 cw (some l) d = ac3_fuel cw (ac3Bound cw d l) d l := rfl

theorem ac3_none_def (cw : Crossword V) (d : Domains V) :
    ac3 cw none d =
      ac3_fuel cw
        (ac3Bound cw d
          (cw.vars.flatMap (fun x => (neighbors cw x).map (fun y => (x, y)))))
        d
        (cw.vars.flatMap (fun x => (neighbors cw x).map (fun y => (x, y)))) :=
  rfl

theorem ac3_some_isSome (cw : Crossword V) (l : List (V × V)) (d : Domains V)
    (hok : ArcsOK cw l) : (ac3 cw (some l) d).isSome = true := by
  rw [ac3_some_def]
  exact ac3_fuel_isSome cw (ac3Bound cw d l) d l hok (Nat.le_refl _)

theorem ac3_none_isSome (cw : Crossword V) (d : Domains V) :
    (ac3 cw none d).isSome = true := by
  rw [ac3_none_def]
  exact ac3_fuel_isSome cw _ d _ (arcsOK_init cw) (Nat.le_refl _)

theorem ac3_subset (cw : Crossword V) (arcs : Option (List (V × V)))
    (d : Domains V) (b : Bool) (d2 : Domains V)
    (h : ac3 cw arcs d = some (b, d2)) : ∀ v, d2 v ⊆ d v := by
  cases arcs with
  | none =>
    rw [ac3_none_def] at h
    exact ac3_fuel_subset cw _ d _ b d2 h
  | some l =>
    rw [ac3_some_def] at h
    exact ac3_fuel_subset cw _ d l b d2 h

/-- If the global `ac3()` pass finishes with `True`, the store is fully arc
consistent (helper shared by several claims). -/
theorem ac3_none_true_ACD (cw : Crossword V) (d d2 : Domains V)
    (h : ac3 cw none d = some (true, d2)) : ArcConsistentD cw d2 := by
  rw [ac3_none_def] at h
  exact ac3_fuel_arcCons cw _ d _ d2 (arcsOK_init cw) (ac3Inv_init cw d) h

/-- On an arc-consistent store, `ac3` with any well-formed seed worklist
returns `True` and leaves the store unchanged. -/
theorem ac3_noop_some (cw : Crossword V) (l : List (V × V)) (d : Domains V)
    (hacd : ArcConsistentD cw d) (hok : ArcsOK cw l) :
    ac3 cw (some l) d = some (true, d) := by
  rw [ac3_some_def]
  apply ac3_fuel_noop cw d hacd (ac3Bound cw d l) l hok
  unfold ac3Bound
  omega

theorem ac3_support_some (cw : Crossword V) (s : V → Word) (l : List (V × V))
    (d : Domains V) (hsol : Sol cw s) (hok : ArcsOK cw l)
    (hsup : Support cw d s) :
    ∃ d2, ac3 cw (some l) d = some (true, d2) ∧ Support cw d2 s := by
  have hs := ac3_some_isSome cw l d hok
  cases h : ac3 cw (some l) d with
  | none => rw [h] at hs; cases hs
  | some p =>
    obtain ⟨b, d2⟩ := p
    rw [ac3_some_def] at h
    obtain ⟨hb, hsup2⟩ := ac3_fuel_support cw s hsol _ d l b d2 hok hsup h
    subst hb
    exact ⟨d2, rfl, hsup2⟩

theorem ac3_support_none (cw : Crossword V) (s : V → Word) (d : Domains V)
    (hsol : Sol cw s) (hsup : Support cw d s) :
    ∃ d2, ac3 cw none d = some (true, d2) ∧ Support cw d2 s := by
  have hs := ac3_none_isSome cw d
  cases h : ac3 cw none d with
  | none => rw [h] at hs; cases hs
  | some p =>
    obtain ⟨b, d2⟩ := p
    rw [ac3_none_def] at h
    obtain ⟨hb, hsup2⟩ :=
      ac3_fuel_support cw s hsol _ d _ b d2 (arcsOK_init cw) hsup h
    subst hb
    exact ⟨d2, rfl, hsup2⟩

theorem ac3_false_empty (cw : Crossword V) (arcs : Option (List (V × V)))
    (d : Domains V) (d2 : Domains V)
    (hok : ∀ l, arcs = some l → ArcsOK cw l)
    (h : ac3 cw arcs d = some (false, d2)) : ∃ x ∈ cw.vars, d2 x = [] := by
  cases arcs with
  | none =>
    rw [ac3_none_def] at h
    exact ac3_fuel_false_empty cw _ d _ d2 (arcsOK_init cw) h
  | some l =>
    rw [ac3_some_def] at h
    exact ac3_fuel_false_empty cw _ d l d2 (hok l rfl) h

/-! ## Lemmas about assignments, selection, and value ordering -/

theorem contains_eq_true {A : Type} [DecidableEq A] (l : List A) (v : A)
    (h : v ∈ l) : l.contains v = true := List.elem_iff.mpr h

theorem contains_eq_false {A : Type} [DecidableEq A] (l : List A) (v : A)
    (h : v ∉ l) : l.contains v = false := by
  cases hc : l.contains v with
  | false => rfl
  | true => exact absurd (List.elem_iff.mp hc) h

theorem keys_contains_iff (a : Assignment V) (v : V) :
    (keys a).contains v = true ↔ v ∈ keys a := List.elem_iff

theorem mem_keys_iff (a : Assignment V) (v : V) :
    v ∈ keys a ↔ ∃ w, (v, w) ∈ a := by
  unfold keys
  rw [List.mem_map]
  constructor
  · rintro ⟨p, hp, rfl⟩
    exact ⟨p.2, hp⟩
  · rintro ⟨w, hw⟩
    exact ⟨(v, w), hw, rfl⟩

theorem keys_dictInsert_of_not_mem (a : Assignment V) (v : V) (w : Word)
    (h : v ∉ keys a) : keys (dictInsert a v w) = keys a ++ [v] := by
  unfold dictInsert
  rw [if_neg (by simpa [keys_contains_iff] using h)]
  unfold keys
  simp

theorem length_dictInsert_of_not_mem (a : Assignment V) (v : V) (w : Word)
    (h : v ∉ keys a) : (dictInsert a v w).length = a.length + 1 := by
  unfold dictInsert
  rw [if_neg (by simpa [keys_contains_iff] using h)]
  simp

theorem length_le_dictInsert (a : Assignment V) (v : V) (w : Word) :
    a.length ≤ (dictInsert a v w).length := by
  unfold dictInsert
  by_cases h : (keys a).contains v = true
  · rw [if_pos h, List.length_map]
  · rw [if_neg h]
    simp

theorem mem_dictInsert_elim (a : Assignment V) (v : V) (w : Word) (p : V × Word)
    (h : p ∈ dictInsert a v w) : p = (v, w) ∨ p ∈ a := by
  unfold dictInsert at h
  by_cases hc : (keys a).contains v = true
  · rw [if_pos hc] at h
    obtain ⟨q, hq, hqp⟩ := List.mem_map.mp h
    by_cases hqv : q.1 = v
    · rw [if_pos hqv] at hqp
      exact Or.inl hqp.symm
    · rw [if_neg hqv] at hqp
      exact Or.inr (hqp ▸ hq)
  · rw [if_neg hc] at h
    rcases List.mem_append.mp h with h1 | h1
    · exact Or.inr h1
    · exact Or.inl (by simpa using h1)

theorem lookupA_dictInsert_of_not_mem (a : Assignment V) (v : V) (w : Word)
    (h : v ∉ keys a) : lookupA (dictInsert a v w) v = some w := by
  unfold dictInsert
  rw [if_neg (by simpa [keys_contains_iff] using h)]
  induction a with
  | nil => simp [lookupA]
  | cons q rest ih =>
    have hqv : q.1 ≠ v := by
      intro e
      exact h (by unfold keys; exact List.mem_map.mpr ⟨q, List.mem_cons_self _ _, e⟩)
    obtain ⟨k, u⟩ := q
    simp only [List.cons_append, lookupA]
    rw [if_neg hqv]
    exact ih (fun hm => h (by unfold keys at hm ⊢; simpa using Or.inr (by simpa using hm)))

/-- Looking up an assigned key of a solution-compatible assignment yields
the solution's word. -/
theorem lookupA_compat (cw : Crossword V) (s : V → Word) :
    ∀ (a : Assignment V), Compat cw a s → ∀ v, v ∈ keys a →
      lookupA a v = some (s v) := by
  intro a
  induction a with
  | nil => intro _ v hv; cases hv
  | cons q rest ih =>
    intro hcomp v hv
    obtain ⟨k, u⟩ := q
    simp only [lookupA]
    by_cases hkv : k = v
    · rw [if_pos hkv]
      have := (hcomp (k, u) (List.mem_cons_self _ _)).2
      simp only at this
      rw [this, hkv]
    · rw [if_neg hkv]
      apply ih (fun p hp => hcomp p (List.mem_cons_of_mem _ hp))
      unfold keys at hv
      rcases List.mem_map.mp hv with ⟨p, hp, hpv⟩
      rcases List.mem_cons.mp hp with rfl | hp2
      · exact absurd hpv hkv
      · exact List.mem_map.mpr ⟨p, hp2, hpv⟩

theorem assignment_complete_iff (cw : Crossword V) (a : Assignment V) :
    assignment_complete cw a = true ↔
      (∀ v ∈ keys a, v ∈ cw.vars) ∧ (∀ v ∈ cw.vars, v ∈ keys a) := by
  unfold assignment_complete
  rw [Bool.and_eq_true, List.all_eq_true, List.all_eq_true]
  constructor
  · rintro ⟨h1, h2⟩
    exact ⟨fun v hv => List.elem_iff.mp (h1 v hv),
           fun v hv => List.elem_iff.mp (h2 v hv)⟩
  · rintro ⟨h1, h2⟩
    exact ⟨fun v hv => List.elem_iff.mpr (h1 v hv),
           fun v hv => List.elem_iff.mpr (h2 v hv)⟩

/-- Extending an assignment with an unassigned structure variable strictly
shrinks the pool of unassigned variables. -/
theorem unassignedLen_dictInsert_lt (cw : Crossword V) (a : Assignment V)
    (var : V) (w : Word) (hv : var ∈ cw.vars) (hnk : var ∉ keys a) :
    unassignedLen cw (dictInsert a var w) < unassignedLen cw a := by
  unfold unassignedLen
  have hpred : ∀ v ∈ cw.vars,
      (!(keys (dictInsert a var w)).contains v) =
        ((v != var) && (!(keys a).contains v)) := by
    intro v _
    rw [keys_dictInsert_of_not_mem a var w hnk]
    by_cases h2 : v = var
    · subst h2
      have hmem : v ∈ keys a ++ [v] :=
        List.mem_append_right _ (List.mem_singleton.mpr rfl)
      rw [contains_eq_true _ _ hmem]
      simp
    · have hne : (v != var) = true := bne_iff_ne.mpr h2
      rw [hne, Bool.true_and]
      by_cases h1 : v ∈ keys a
      · rw [contains_eq_true _ _ h1,
          contains_eq_true _ _ (List.mem_append_left _ h1)]
      · rw [contains_eq_false _ _ h1, contains_eq_false _ _ (by
          intro hm
          rcases List.mem_append.mp hm with hm1 | hm1
          · exact h1 hm1
          · exact h2 (List.mem_singleton.mp hm1))]
  rw [List.filter_congr hpred, ← List.filter_filter]
  apply List.length_filter_lt_length_iff_exists.mpr
  refine ⟨var, ?_, by simp⟩
  apply List.mem_filter.mpr
  exact ⟨hv, by rw [contains_eq_false _ _ hnk]; rfl⟩

theorem firstMinBy_cons_none (key : V → Nat) (v : V) (rest : List V)
    (hr : firstMinBy key rest = none) :
    firstMinBy key (v :: rest) = some v := by
  simp only [firstMinBy]
  rw [hr]

theorem firstMinBy_cons_some (key : V → Nat) (v m : V) (rest : List V)
    (hr : firstMinBy key rest = some m) :
    firstMinBy key (v :: rest) =
      (if key v ≤ key m then some v else some m) := by
  simp only [firstMinBy]
  rw [hr]

theorem firstMinBy_none_iff (key : V → Nat) (l : List V) :
    firstMinBy key l = none ↔ l = [] := by
  cases l with
  | nil => simp [firstMinBy]
  | cons v rest =>
    constructor
    · intro h
      cases hr : firstMinBy key rest with
      | none => rw [firstMinBy_cons_none key v rest hr] at h; cases h
      | some m =>
        rw [firstMinBy_cons_some key v m rest hr] at h
        by_cases hle : key v ≤ key m
        · rw [if_pos hle] at h; cases h
        · rw [if_neg hle] at h; cases h
    · intro h; cases h

theorem firstMinBy_mem (key : V → Nat) :
    ∀ (l : List V) (m : V), firstMinBy key l = some m → m ∈ l := by
  intro l
  induction l with
  | nil => intro m h; cases h
  | cons v rest ih =>
    intro m h
    cases hr : firstMinBy key rest with
    | none =>
      rw [firstMinBy_cons_none key v rest hr] at h
      exact List.mem_cons.mpr (Or.inl (Option.some.inj h).symm)
    | some m2 =>
      rw [firstMinBy_cons_some key v m2 rest hr] at h
      by_cases hle : key v ≤ key m2
      · rw [if_pos hle] at h
        exact List.mem_cons.mpr (Or.inl (Option.some.inj h).symm)
      · rw [if_neg hle] at h
        obtain rfl := (Option.some.inj h).symm
        exact List.mem_cons.mpr (Or.inr (ih _ hr))

theorem firstMinBy_min (key : V → Nat) :
    ∀ (l : List V) (m : V), firstMinBy key l = some m →
      ∀ x ∈ l, key m ≤ key x := by
  intro l
  induction l with
  | nil => intro m h; cases h
  | cons v rest ih =>
    intro m h x hx
    cases hr : firstMinBy key rest with
    | none =>
      rw [firstMinBy_cons_none key v rest hr] at h
      have hrest : rest = [] := (firstMinBy_none_iff key rest).mp hr
      obtain rfl := (Option.some.inj h).symm
      rcases List.mem_cons.mp hx with rfl | hx2
      · exact Nat.le_refl _
      · rw [hrest] at hx2; cases hx2
    | some m2 =>
      rw [firstMinBy_cons_some key v m2 rest hr] at h
      by_cases hle : key v ≤ key m2
      · rw [if_pos hle] at h
        obtain rfl := (Option.some.inj h).symm
        rcases List.mem_cons.mp hx with rfl | hx2
        · exact Nat.le_refl _
        · exact Nat.le_trans hle (ih m2 hr x hx2)
      · rw [if_neg hle] at h
        obtain rfl := (Option.some.inj h).symm
        rcases List.mem_cons.mp hx with rfl | hx2
        · exact Nat.le_of_lt (Nat.lt_of_not_le hle)
        · exact ih m hr x hx2

theorem select_some_mem (cw : Crossword V) (d : Domains V) (a : Assignment V)
    (var : V) (h : select_unassigned_variable cw d a = some var) :
    var ∈ cw.vars ∧ var ∉ keys a := by
  have hm := firstMinBy_mem _ _ _ h
  have := List.mem_filter.mp hm
  refine ⟨this.1, fun hk => ?_⟩
  have h2 := this.2
  rw [contains_eq_true _ _ hk] at h2
  simp at h2

theorem select_some_min (cw : Crossword V) (d : Domains V) (a : Assignment V)
    (var : V) (h : select_unassigned_variable cw d a = some var) :
    ∀ u ∈ cw.vars, u ∉ keys a → (d var).length ≤ (d u).length := by
  intro u hu hnk
  apply firstMinBy_min _ _ _ h
  apply List.mem_filter.mpr
  exact ⟨hu, by rw [contains_eq_false _ _ hnk]; rfl⟩

theorem select_none_all_assigned (cw : Crossword V) (d : Domains V)
    (a : Assignment V) (h : select_unassigned_variable cw d a = none) :
    ∀ v ∈ cw.vars, v ∈ keys a := by
  intro v hv
  have hnil := (firstMinBy_none_iff _ _).mp h
  by_contra hnk
  have : v ∈ cw.vars.filter (fun v => !(keys a).contains v) := by
    apply List.mem_filter.mpr
    exact ⟨hv, by rw [contains_eq_false _ _ hnk]; rfl⟩
  rw [hnil] at this
  cases this

theorem order_domain_values_perm (cw : Crossword V) (d : Domains V) (var : V)
    (a : Assignment V) : (order_domain_values cw d var a).Perm (d var) :=
  List.perm_insertionSort _ (d var)

theorem order_domain_values_mem (cw : Crossword V) (d : Domains V) (var : V)
    (a : Assignment V) (w : Word) :
    w ∈ order_domain_values cw d var a ↔ w ∈ d var :=
  (order_domain_values_perm cw d var a).mem_iff

/-! ## Unfolding equations for `try_values` and `backtrack_fuel` -/

theorem try_values_nil (cw : Crossword V)
    (recurse : Domains V → Assignment V → Option (Option (Assignment V) × Domains V))
    (var : V) (a : Assignment V) (d : Domains V) :
    try_values cw recurse var a [] d = some (none, d) := rfl

theorem try_values_cons_ac3_none (cw : Crossword V)
    (recurse : Domains V → Assignment V → Option (Option (Assignment V) × Domains V))
    (var : V) (a : Assignment V) (value : Word) (rest : List Word)
    (d : Domains V)
    (hac3 : ac3 cw (some ((neighbors cw var).map (fun n => (n, var)))) d = none) :
    try_values cw recurse var a (value :: rest) d = none := by
  simp only [try_values]
  rw [hac3]

theorem try_values_cons_guard_false (cw : Crossword V)
    (recurse : Domains V → Assignment V → Option (Option (Assignment V) × Domains V))
    (var : V) (a : Assignment V) (value : Word) (rest : List Word)
    (d : Domains V) (inf : Bool) (dm : Domains V)
    (hac3 : ac3 cw (some ((neighbors cw var).map (fun n => (n, var)))) d =
      some (inf, dm))
    (hg : (consistent cw (dictInsert a var value) && inf) = false) :
    try_values cw recurse var a (value :: rest) d =
      try_values cw recurse var a rest dm := by
  simp only [try_values, hac3]
  rw [hg, if_neg Bool.false_ne_true]

theorem try_values_cons_rec_none (cw : Crossword V)
    (recurse : Domains V → Assignment V → Option (Option (Assignment V) × Domains V))
    (var : V) (a : Assignment V) (value : Word) (rest : List Word)
    (d : Domains V) (inf : Bool) (dm : Domains V)
    (hac3 : ac3 cw (some ((neighbors cw var).map (fun n => (n, var)))) d =
      some (inf, dm))
    (hg : (consistent cw (dictInsert a var value) && inf) = true)
    (hrec : recurse dm (dictInsert a var value) = none) :
    try_values cw recurse var a (value :: rest) d = none := by
  simp only [try_values, hac3]
  rw [hg, if_pos rfl, hrec]

theorem try_values_cons_rec_some (cw : Crossword V)
    (recurse : Domains V → Assignment V → Option (Option (Assignment V) × Domains V))
    (var : V) (a : Assignment V) (value : Word) (rest : List Word)
    (d : Domains V) (inf : Bool) (dm : Domains V)
    (result : Option (Assignment V)) (d3 : Domains V)
    (hac3 : ac3 cw (some ((neighbors cw var).map (fun n => (n, var)))) d =
      some (inf, dm))
    (hg : (consistent cw (dictInsert a var value) && inf) = true)
    (hrec : recurse dm (dictInsert a var value) = some (result, d3)) :
    try_values cw recurse var a (value :: rest) d =
      (if pyTruthy result then some (result, d3)
       else try_values cw recurse var a rest d3) := by
  simp only [try_values, hac3]
  rw [hg, if_pos rfl, hrec]

theorem backtrack_fuel_zero (cw : Crossword V) (d : Domains V)
    (a : Assignment V) : backtrack_fuel cw 0 d a = none := rfl

theorem backtrack_fuel_succ_complete (cw : Crossword V) (n : Nat)
    (d : Domains V) (a : Assignment V)
    (h : assignment_complete cw a = true) :
    backtrack_fuel cw (n + 1) d a = some (some a, d) := by
  simp only [backtrack_fuel]
  rw [h, if_pos rfl]

theorem backtrack_fuel_succ_sel_none (cw : Crossword V) (n : Nat)
    (d : Domains V) (a : Assignment V)
    (h1 : assignment_complete cw a = false)
    (h2 : select_unassigned_variable cw d a = none) :
    backtrack_fuel cw (n + 1) d a = none := by
  simp only [backtrack_fuel]
  rw [h1, if_neg Bool.false_ne_true, h2]

theorem backtrack_fuel_succ_sel_some (cw : Crossword V) (n : Nat)
    (d : Domains V) (a : Assignment V) (var : V)
    (h1 : assignment_complete cw a = false)
    (h2 : select_unassigned_variable cw d a = some var) :
    backtrack_fuel cw (n + 1) d a =
      try_values cw (backtrack_fuel cw n) var a
        (order_domain_values cw d var a) d := by
  simp only [backtrack_fuel]
  rw [h1, if_neg Bool.false_ne_true, h2]

/-! ## Backtracking only shrinks the domain store -/

theorem try_values_domsub (cw : Crossword V)
    (recurse : Domains V → Assignment V → Option (Option (Assignment V) × Domains V))
    (var : V) (a : Assignment V)
    (hrec : ∀ d a2 r d2, recurse d a2 = some (r, d2) → ∀ v, d2 v ⊆ d v) :
    ∀ (cs : List Word) (d : Domains V) (r : Option (Assignment V))
      (d2 : Domains V),
      try_values cw recurse var a cs d = some (r, d2) → ∀ v, d2 v ⊆ d v := by
  intro cs
  induction cs with
  | nil =>
    intro d r d2 h v
    rw [try_values_nil] at h
    simp only [Option.some.injEq, Prod.mk.injEq] at h
    rw [← h.2]
    exact List.Subset.refl _
  | cons value rest ih =>
    intro d r d2 h v
    cases hac3 : ac3 cw (some ((neighbors cw var).map (fun n => (n, var)))) d with
    | none =>
      rw [try_values_cons_ac3_none cw recurse var a value rest d hac3] at h
      cases h
    | some p =>
      obtain ⟨inf, dm⟩ := p
      have hmsub := ac3_subset cw _ d inf dm hac3
      cases hg : (consistent cw (dictInsert a var value) && inf) with
      | false =>
        rw [try_values_cons_guard_false cw recurse var a value rest d inf dm
          hac3 hg] at h
        exact List.Subset.trans (ih dm r d2 h v) (hmsub v)
      | true =>
        cases hrc : recurse dm (dictInsert a var value) with
        | none =>
          rw [try_values_cons_rec_none cw recurse var a value rest d inf dm
            hac3 hg hrc] at h
          cases h
        | some q =>
          obtain ⟨result, d3⟩ := q
          have h3sub := hrec dm _ result d3 hrc
          rw [try_values_cons_rec_some cw recurse var a value rest d inf dm
            result d3 hac3 hg hrc] at h
          by_cases ht : pyTruthy result = true
          · rw [if_pos ht] at h
            simp only [Option.some.injEq, Prod.mk.injEq] at h
            rw [← h.2]
            exact List.Subset.trans (h3sub v) (hmsub v)
          · rw [if_neg ht] at h
            exact List.Subset.trans (ih d3 r d2 h v)
              (List.Subset.trans (h3sub v) (hmsub v))

theorem backtrack_fuel_domsub (cw : Crossword V) :
    ∀ (fuel : Nat) (d : Domains V) (a : Assignment V)
      (r : Option (Assignment V)) (d2 : Domains V),
      backtrack_fuel cw fuel d a = some (r, d2) → ∀ v, d2 v ⊆ d v := by
  intro fuel
  induction fuel with
  | zero => intro d a r d2 h; rw [backtrack_fuel_zero] at h; cases h
  | succ n ih =>
    intro d a r d2 h v
    cases hc : assignment_complete cw a with
    | true =>
      rw [backtrack_fuel_succ_complete cw n d a hc] at h
      simp only [Option.some.injEq, Prod.mk.injEq] at h
      rw [← h.2]
      exact List.Subset.refl _
    | false =>
      cases hsel : select_unassigned_variable cw d a with
      | none => rw [backtrack_fuel_succ_sel_none cw n d a hc hsel] at h; cases h
      | some var =>
        rw [backtrack_fuel_succ_sel_some cw n d a var hc hsel] at h
        exact try_values_domsub cw (backtrack_fuel cw n) var a
          (fun d a2 r d2 h => ih d a2 r d2 h) _ d r d2 h v

/-! ## Backtracking results extend the input assignment in length -/

theorem try_values_len (cw : Crossword V)
    (recurse : Domains V → Assignment V → Option (Option (Assignment V) × Domains V))
    (var : V) (a : Assignment V)
    (hrec : ∀ d a2 r d2, recurse d a2 = some (some r, d2) →
      a2.length ≤ r.length) :
    ∀ (cs : List Word) (d : Domains V) (r : Assignment V) (d2 : Domains V),
      try_values cw recurse var a cs d = some (some r, d2) →
      a.length ≤ r.length := by
  intro cs
  induction cs with
  | nil =>
    intro d r d2 h
    rw [try_values_nil] at h
    simp at h
  | cons value rest ih =>
    intro d r d2 h
    cases hac3 : ac3 cw (some ((neighbors cw var).map (fun n => (n, var)))) d with
    | none =>
      rw [try_values_cons_ac3_none cw recurse var a value rest d hac3] at h
      cases h
    | some p =>
      obtain ⟨inf, dm⟩ := p
      cases hg : (consistent cw (dictInsert a var value) && inf) with
      | false =>
        rw [try_values_cons_guard_false cw recurse var a value rest d inf dm
          hac3 hg] at h
        exact ih dm r d2 h
      | true =>
        cases hrc : recurse dm (dictInsert a var value) with
        | none =>
          rw [try_values_cons_rec_none cw recurse var a value rest d inf dm
            hac3 hg hrc] at h
          cases h
        | some q =>
          obtain ⟨result, d3⟩ := q
          rw [try_values_cons_rec_some cw recurse var a value rest d inf dm
            result d3 hac3 hg hrc] at h
          by_cases ht : pyTruthy result = true
          · rw [if_pos ht] at h
            simp only [Option.some.injEq, Prod.mk.injEq] at h
            obtain ⟨hres, -⟩ := h
            subst hres
            exact Nat.le_trans (length_le_dictInsert a var value)
              (hrec dm _ r d3 hrc)
          · rw [if_neg ht] at h
            exact ih d3 r d2 h

theorem backtrack_fuel_len (cw : Crossword V) :
    ∀ (fuel : Nat) (d : Domains V) (a : Assignment V) (r : Assignment V)
      (d2 : Domains V), backtrack_fuel cw fuel d a = some (some r, d2) →
      a.length ≤ r.length := by
  intro fuel
  induction fuel with
  | zero => intro d a r d2 h; rw [backtrack_fuel_zero] at h; cases h
  | succ n ih =>
    intro d a r d2 h
    cases hc : assignment_complete cw a with
    | true =>
      rw [backtrack_fuel_succ_complete cw n d a hc] at h
      simp only [Option.some.injEq, Prod.mk.injEq, Option.some.injEq] at h
      rw [h.1]
    | false =>
      cases hsel : select_unassigned_variable cw d a with
      | none => rw [backtrack_fuel_succ_sel_none cw n d a hc hsel] at h; cases h
      | some var =>
        rw [backtrack_fuel_succ_sel_some cw n d a var hc hsel] at h
        exact try_values_len cw (backtrack_fuel cw n) var a
          (fun d a2 r d2 h => ih d a2 r d2 h) _ d r d2 h

/-! ## Backtracking never raises nor exhausts its canonical fuel -/

theorem try_values_isSome (cw : Crossword V)
    (recurse : Domains V → Assignment V → Option (Option (Assignment V) × Domains V))
    (var : V) (a : Assignment V) (hvar : var ∈ cw.vars)
    (hrec : ∀ (dm : Domains V) (w : Word),
      (recurse dm (dictInsert a var w)).isSome = true) :
    ∀ (cs : List Word) (d : Domains V),
      (try_values cw recurse var a cs d).isSome = true := by
  intro cs
  induction cs with
  | nil => intro d; rw [try_values_nil]; rfl
  | cons value rest ih =>
    intro d
    cases hac3 : ac3 cw (some ((neighbors cw var).map (fun n => (n, var)))) d with
    | none =>
      exfalso
      have := ac3_some_isSome cw ((neighbors cw var).map (fun n => (n, var))) d
        (arcsOK_neighbor_arcs cw var hvar)
      rw [hac3] at this
      cases this
    | some p =>
      obtain ⟨inf, dm⟩ := p
      cases hg : (consistent cw (dictInsert a var value) && inf) with
      | false =>
        rw [try_values_cons_guard_false cw recurse var a value rest d inf dm
          hac3 hg]
        exact ih dm
      | true =>
        cases hrc : recurse dm (dictInsert a var value) with
        | none =>
          exfalso
          have := hrec dm value
          rw [hrc] at this
          cases this
        | some q =>
          obtain ⟨result, d3⟩ := q
          rw [try_values_cons_rec_some cw recurse var a value rest d inf dm
            result d3 hac3 hg hrc]
          by_cases ht : pyTruthy result = true
          · rw [if_pos ht]; rfl
          · rw [if_neg ht]
            exact ih d3

theorem backtrack_fuel_isSome (cw : Crossword V) :
    ∀ (fuel : Nat) (d : Domains V) (a : Assignment V),
      (∀ v ∈ keys a, v ∈ cw.vars) → unassignedLen cw a + 1 ≤ fuel →
      (backtrack_fuel cw fuel d a).isSome = true := by
  intro fuel
  induction fuel with
  | zero => intro d a _ hb; omega
  | succ n ih =>
    intro d a hkeys hb
    cases hc : assignment_complete cw a with
    | true => rw [backtrack_fuel_succ_complete cw n d a hc]; rfl
    | false =>
      cases hsel : select_unassigned_variable cw d a with
      | none =>
        exfalso
        have hall := select_none_all_assigned cw d a hsel
        have : assignment_complete cw a = true :=
          (assignment_complete_iff cw a).mpr ⟨hkeys, hall⟩
        rw [hc] at this
        cases this
      | some var =>
        rw [backtrack_fuel_succ_sel_some cw n d a var hc hsel]
        obtain ⟨hvv, hvnk⟩ := select_some_mem cw d a var hsel
        apply try_values_isSome cw (backtrack_fuel cw n) var a hvv
        intro dm w
        apply ih dm (dictInsert a var w)
        · intro v hv
          rw [keys_dictInsert_of_not_mem a var w hvnk] at hv
          rcases List.mem_append.mp hv with hv1 | hv1
          · exact hkeys v hv1
          · rw [List.mem_singleton.mp hv1]
            exact hvv
        · have := unassignedLen_dictInsert_lt cw a var w hvv hvnk
          omega

/-! ## Backtracking preserves support for a global solution -/

theorem try_values_support (cw : Crossword V) (s : V → Word)
    (recurse : Domains V → Assignment V → Option (Option (Assignment V) × Domains V))
    (var : V) (a : Assignment V) (hsol : Sol cw s) (hvar : var ∈ cw.vars)
    (hrec : ∀ dm a2 r d2, Support cw dm s → recurse dm a2 = some (r, d2) →
      Support cw d2 s) :
    ∀ (cs : List Word) (d : Domains V) (r : Option (Assignment V))
      (d2 : Domains V), Support cw d s →
      try_values cw recurse var a cs d = some (r, d2) → Support cw d2 s := by
  intro cs
  induction cs with
  | nil =>
    intro d r d2 hsup h
    rw [try_values_nil] at h
    simp only [Option.some.injEq, Prod.mk.injEq] at h
    rw [← h.2]
    exact hsup
  | cons value rest ih =>
    intro d r d2 hsup h
    cases hac3 : ac3 cw (some ((neighbors cw var).map (fun n => (n, var)))) d with
    | none =>
      rw [try_values_cons_ac3_none cw recurse var a value rest d hac3] at h
      cases h
    | some p =>
      obtain ⟨inf, dm⟩ := p
      have hsupm : Support cw dm s := by
        rw [ac3_some_def] at hac3
        exact (ac3_fuel_support cw s hsol _ d _ inf dm
          (arcsOK_neighbor_arcs cw var hvar) hsup hac3).2
      cases hg : (consistent cw (dictInsert a var value) && inf) with
      | false =>
        rw [try_values_cons_guard_false cw recurse var a value rest d inf dm
          hac3 hg] at h
        exact ih dm r d2 hsupm h
      | true =>
        cases hrc : recurse dm (dictInsert a var value) with
        | none =>
          rw [try_values_cons_rec_none cw recurse var a value rest d inf dm
            hac3 hg hrc] at h
          cases h
        | some q =>
          obtain ⟨result, d3⟩ := q
          have hsup3 : Support cw d3 s := hrec dm _ result d3 hsupm hrc
          rw [try_values_cons_rec_some cw recurse var a value rest d inf dm
            result d3 hac3 hg hrc] at h
          by_cases ht : pyTruthy result = true
          · rw [if_pos ht] at h
            simp only [Option.some.injEq, Prod.mk.injEq] at h
            rw [← h.2]
            exact hsup3
          · rw [if_neg ht] at h
            exact ih d3 r d2 hsup3 h

theorem backtrack_fuel_support (cw : Crossword V) (s : V → Word)
    (hsol : Sol cw s) :
    ∀ (fuel : Nat) (d : Domains V) (a : Assignment V)
      (r : Option (Assignment V)) (d2 : Domains V), Support cw d s →
      backtrack_fuel cw fuel d a = some (r, d2) → Support cw d2 s := by
  intro fuel
  induction fuel with
  | zero => intro d a r d2 _ h; rw [backtrack_fuel_zero] at h; cases h
  | succ n ih =>
    intro d a r d2 hsup h
    cases hc : assignment_complete cw a with
    | true =>
      rw [backtrack_fuel_succ_complete cw n d a hc] at h
      simp only [Option.some.injEq, Prod.mk.injEq] at h
      rw [← h.2]
      exact hsup
    | false =>
      cases hsel : select_unassigned_variable cw d a with
      | none => rw [backtrack_fuel_succ_sel_none cw n d a hc hsel] at h; cases h
      | some var =>
        rw [backtrack_fuel_succ_sel_some cw n d a var hc hsel] at h
        exact try_values_support cw s (backtrack_fuel cw n) var a hsol
          (select_some_mem cw d a var hsel).1
          (fun dm a2 r d2 hs hh => ih dm a2 r d2 hs hh) _ d r d2 hsup h

/-! ## On an arc-consistent store, backtracking never mutates the store -/

theorem try_values_frame (cw : Crossword V)
    (recurse : Domains V → Assignment V → Option (Option (Assignment V) × Domains V))
    (var : V) (a : Assignment V) (d : Domains V)
    (hvar : var ∈ cw.vars) (hacd : ArcConsistentD cw d)
    (hrec : ∀ a2 r d2, recurse d a2 = some (r, d2) → d2 = d) :
    ∀ (cs : List Word) (r : Option (Assignment V)) (d2 : Domains V),
      try_values cw recurse var a cs d = some (r, d2) → d2 = d := by
  intro cs
  induction cs with
  | nil =>
    intro r d2 h
    rw [try_values_nil] at h
    simp only [Option.some.injEq, Prod.mk.injEq] at h
    exact h.2.symm
  | cons value rest ih =>
    intro r d2 h
    have hac3 : ac3 cw (some ((neighbors cw var).map (fun n => (n, var)))) d =
        some (true, d) :=
      ac3_noop_some cw _ d hacd (arcsOK_neighbor_arcs cw var hvar)
    cases hg : (consistent cw (dictInsert a var value) && true) with
    | false =>
      rw [try_values_cons_guard_false cw recurse var a value rest d true d
        hac3 hg] at h
      exact ih r d2 h
    | true =>
      cases hrc : recurse d (dictInsert a var value) with
      | none =>
        rw [try_values_cons_rec_none cw recurse var a value rest d true d
          hac3 hg hrc] at h
        cases h
      | some q =>
        obtain ⟨result, d3⟩ := q
        have hd3 : d3 = d := hrec _ result d3 hrc
        rw [try_values_cons_rec_some cw recurse var a value rest d true d
          result d3 hac3 hg hrc] at h
        by_cases ht : pyTruthy result = true
        · rw [if_pos ht] at h
          simp only [Option.some.injEq, Prod.mk.injEq] at h
          exact h.2 ▸ hd3
        · rw [if_neg ht] at h
          rw [hd3] at h
          exact ih r d2 h

theorem backtrack_fuel_frame (cw : Crossword V) :
    ∀ (fuel : Nat) (d : Domains V) (a : Assignment V)
      (r : Option (Assignment V)) (d2 : Domains V), ArcConsistentD cw d →
      backtrack_fuel cw fuel d a = some (r, d2) → d2 = d := by
  intro fuel
  induction fuel with
  | zero => intro d a r d2 _ h; rw [backtrack_fuel_zero] at h; cases h
  | succ n ih =>
    intro d a r d2 hacd h
    cases hc : assignment_complete cw a with
    | true =>
      rw [backtrack_fuel_succ_complete cw n d a hc] at h
      simp only [Option.some.injEq, Prod.mk.injEq] at h
      exact h.2.symm
    | false =>
      cases hsel : select_unassigned_variable cw d a with
      | none => rw [backtrack_fuel_succ_sel_none cw n d a hc hsel] at h; cases h
      | some var =>
        rw [backtrack_fuel_succ_sel_some cw n d a var hc hsel] at h
        exact try_values_frame cw (backtrack_fuel cw n) var a d
          (select_some_mem cw d a var hsel).1 hacd
          (fun a2 r d2 hh => ih d a2 r d2 hacd hh) _ r d2 h

/-- With an unassigned variable whose domain is empty, `backtrack` fails
immediately (before running any inference), leaving the store unchanged. -/
theorem backtrack_fuel_empty_none (cw : Crossword V) (n : Nat) (d : Domains V)
    (a : Assignment V) (v : V) (hv : v ∈ cw.vars) (hnk : v ∉ keys a)
    (hempty : d v = []) :
    backtrack_fuel cw (n + 1) d a = some (none, d) := by
  have hc : assignment_complete cw a = false := by
    cases hcc : assignment_complete cw a with
    | false => rfl
    | true =>
      exact absurd (((assignment_complete_iff cw a).mp hcc).2 v hv) hnk
  cases hsel : select_unassigned_variable cw d a with
  | none => exact absurd (select_none_all_assigned cw d a hsel v hv) hnk
  | some u =>
    rw [backtrack_fuel_succ_sel_some cw n d a u hc hsel]
    have hmin := select_some_min cw d a u hsel v hv hnk
    rw [hempty] at hmin
    have hdu : d u = [] := by
      cases hdu : d u with
      | nil => rfl
      | cons w ws => rw [hdu] at hmin; simp at hmin
    have hord : order_domain_values cw d u a = [] := by
      apply List.Perm.eq_nil
      have := order_domain_values_perm cw d u a
      rw [hdu] at this
      exact this
    rw [hord, try_values_nil]

/-! ## Soundness of backtracking -/

theorem try_values_sound (cw : Crossword V)
    (recurse : Domains V → Assignment V → Option (Option (Assignment V) × Domains V))
    (var : V) (a : Assignment V)
    (hrec : ∀ dm a2 r d2, consistent cw a2 = true → AVal cw a2 →
      DomSub cw dm → recurse dm a2 = some (some r, d2) →
      assignment_complete cw r = true ∧ consistent cw r = true ∧ AVal cw r)
    (hrecsub : ∀ dm a2 r d2, recurse dm a2 = some (r, d2) → ∀ u, d2 u ⊆ dm u)
    (hval : AVal cw a) :
    ∀ (cs : List Word) (d : Domains V) (r : Assignment V) (d2 : Domains V),
      DomSub cw d → (∀ w ∈ cs, w ∈ cw.words) →
      try_values cw recurse var a cs d = some (some r, d2) →
      assignment_complete cw r = true ∧ consistent cw r = true ∧
        AVal cw r := by
  intro cs
  induction cs with
  | nil =>
    intro d r d2 _ _ h
    rw [try_values_nil] at h
    simp at h
  | cons value rest ih =>
    intro d r d2 hdsub hcs h
    cases hac3 : ac3 cw (some ((neighbors cw var).map (fun n => (n, var)))) d with
    | none =>
      rw [try_values_cons_ac3_none cw recurse var a value rest d hac3] at h
      cases h
    | some p =>
      obtain ⟨inf, dm⟩ := p
      have hdmsub : DomSub cw dm := fun u =>
        List.Subset.trans (ac3_subset cw _ d inf dm hac3 u) (hdsub u)
      cases hg : (consistent cw (dictInsert a var value) && inf) with
      | false =>
        rw [try_values_cons_guard_false cw recurse var a value rest d inf dm
          hac3 hg] at h
        exact ih dm r d2 hdmsub (fun w hw => hcs w (List.mem_cons_of_mem _ hw)) h
      | true =>
        obtain ⟨hcons, -⟩ := Bool.and_eq_true_iff.mp hg
        have hvalnew : AVal cw (dictInsert a var value) := by
          intro p hp
          rcases mem_dictInsert_elim a var value p hp with rfl | hp2
          · exact hcs value (List.mem_cons_self _ _)
          · exact hval p hp2
        cases hrc : recurse dm (dictInsert a var value) with
        | none =>
          rw [try_values_cons_rec_none cw recurse var a value rest d inf dm
            hac3 hg hrc] at h
          cases h
        | some q =>
          obtain ⟨result, d3⟩ := q
          rw [try_values_cons_rec_some cw recurse var a value rest d inf dm
            result d3 hac3 hg hrc] at h
          by_cases ht : pyTruthy result = true
          · rw [if_pos ht] at h
            simp only [Option.some.injEq, Prod.mk.injEq] at h
            obtain ⟨hres, -⟩ := h
            subst hres
            exact hrec dm _ r d3 hcons hvalnew hdmsub hrc
          · rw [if_neg ht] at h
            have hd3sub : DomSub cw d3 := fun u =>
              List.Subset.trans (hrecsub dm _ result d3 hrc u) (hdmsub u)
            exact ih d3 r d2 hd3sub
              (fun w hw => hcs w (List.mem_cons_of_mem _ hw)) h

theorem backtrack_fuel_sound (cw : Crossword V) :
    ∀ (fuel : Nat) (d : Domains V) (a : Assignment V) (r : Assignment V)
      (d2 : Domains V), consistent cw a = true → AVal cw a → DomSub cw d →
      backtrack_fuel cw fuel d a = some (some r, d2) →
      assignment_complete cw r = true ∧ consistent cw r = true ∧
        AVal cw r := by
  intro fuel
  induction fuel with
  | zero => intro d a r d2 _ _ _ h; rw [backtrack_fuel_zero] at h; cases h
  | succ n ih =>
    intro d a r d2 hcons hval hdsub h
    cases hc : assignment_complete cw a with
    | true =>
      rw [backtrack_fuel_succ_complete cw n d a hc] at h
      simp only [Option.some.injEq, Prod.mk.injEq, Option.some.injEq] at h
      obtain ⟨rfl, -⟩ := h
      exact ⟨hc, hcons, hval⟩
    | false =>
      cases hsel : select_unassigned_variable cw d a with
      | none => rw [backtrack_fuel_succ_sel_none cw n d a hc hsel] at h; cases h
      | some var =>
        rw [backtrack_fuel_succ_sel_some cw n d a var hc hsel] at h
        apply try_values_sound cw (backtrack_fuel cw n) var a
          (fun dm a2 r2 dd2 hc2 hv2 hds2 hh => ih dm a2 r2 dd2 hc2 hv2 hds2 hh)
          (fun dm a2 r2 dd2 hh => backtrack_fuel_domsub cw n dm a2 r2 dd2 hh)
          hval _ d r d2 hdsub ?_ h
        intro w hw
        rw [order_domain_values_mem] at hw
        exact hdsub var hw

/-! ## A solution-compatible assignment passes `consistent` -/

theorem values_eq_map_s (cw : Crossword V) (s : V → Word) (a : Assignment V)
    (hcomp : Compat cw a s) : a.map Prod.snd = (keys a).map s := by
  unfold keys
  rw [List.map_map]
  apply List.map_congr_left
  intro p hp
  exact (hcomp p hp).2

theorem consistent_of_compat (cw : Crossword V) (s : V → Word)
    (a : Assignment V) (hsol : Sol cw s) (hcomp : Compat cw a s)
    (hnd : (keys a).Nodup) : consistent cw a = true := by
  unfold consistent
  apply Bool.and_eq_true_iff.mpr
  constructor
  · -- all assigned words are pairwise distinct
    have hvnd : (a.map Prod.snd).Nodup := by
      rw [values_eq_map_s cw s a hcomp]
      apply List.Nodup.map_on ?_ hnd
      intro x hx y hy hxy
      by_contra hne
      have hxv : x ∈ cw.vars := by
        obtain ⟨w, hw⟩ := (mem_keys_iff a x).mp hx
        exact (hcomp (x, w) hw).1
      have hyv : y ∈ cw.vars := by
        obtain ⟨w, hw⟩ := (mem_keys_iff a y).mp hy
        exact (hcomp (y, w) hw).1
      exact hsol.2.1 x hxv y hyv hne hxy
    rw [List.dedup_eq_self.mpr hvnd]
    exact beq_iff_eq.mpr rfl
  · apply List.all_eq_true.mpr
    intro p hp
    obtain ⟨hpv, hps⟩ := hcomp p hp
    apply Bool.and_eq_true_iff.mpr
    constructor
    · rw [hps]
      exact beq_iff_eq.mpr (hsol.1 p.1 hpv).2
    · apply List.all_eq_true.mpr
      intro n hn
      obtain ⟨hnv, hnp, hno⟩ := (mem_neighbors cw p.1 n).mp hn
      cases hcont : (keys a).contains n with
      | false => rw [if_neg Bool.false_ne_true]
      | true =>
        rw [if_pos rfl]
        cases ho : cw.overlaps p.1 n with
        | none => rfl
        | some pij =>
          obtain ⟨i, j⟩ := pij
          show (charAt p.2 i == charAt ((lookupA a n).getD []) j) = true
          rw [lookupA_compat cw s a hcomp n (List.elem_iff.mp hcont)]
          simp only [Option.getD_some]
          rw [hps]
          exact beq_iff_eq.mpr
            (hsol.2.2 p.1 hpv n hnv (i, j) (Option.mem_def.mpr ho))

/-! ## Completeness of backtracking -/

theorem pyTruthy_some_of_pos (r : Assignment V) (h : 0 < r.length) :
    pyTruthy (some r) = true := by
  cases r with
  | nil => cases h
  | cons p rest => rfl

theorem pyTruthy_elim (result : Option (Assignment V))
    (h : pyTruthy result = true) : ∃ l, result = some l ∧ 0 < l.length := by
  cases result with
  | none => cases h
  | some l =>
    cases l with
    | nil => cases h
    | cons p rest => exact ⟨p :: rest, rfl, Nat.succ_pos _⟩

theorem compat_dictInsert (cw : Crossword V) (s : V → Word) (a : Assignment V)
    (var : V) (hvar : var ∈ cw.vars) (hcomp : Compat cw a s) :
    Compat cw (dictInsert a var (s var)) s := by
  intro p hp
  rcases mem_dictInsert_elim a var (s var) p hp with rfl | hp2
  · exact ⟨hvar, rfl⟩
  · exact hcomp p hp2

theorem keys_nodup_dictInsert (a : Assignment V) (var : V) (w : Word)
    (hnd : (keys a).Nodup) (hvnk : var ∉ keys a) :
    (keys (dictInsert a var w)).Nodup := by
  rw [keys_dictInsert_of_not_mem a var w hvnk]
  simp [List.nodup_append, hnd, hvnk]

theorem try_values_complete (cw : Crossword V) (s : V → Word)
    (recurse : Domains V → Assignment V → Option (Option (Assignment V) × Domains V))
    (var : V) (a : Assignment V) (hsol : Sol cw s)
    (hvar : var ∈ cw.vars) (hvnk : var ∉ keys a)
    (hcomp : Compat cw a s) (hnd : (keys a).Nodup)
    (hrecC : ∀ dm, Support cw dm s → DomSub cw dm →
      ∃ r d2, recurse dm (dictInsert a var (s var)) = some (some r, d2))
    (hrecN : ∀ (dm : Domains V) (w : Word),
      (recurse dm (dictInsert a var w)).isSome = true)
    (hrecLen : ∀ dm a2 r d2, recurse dm a2 = some (some r, d2) →
      a2.length ≤ r.length)
    (hrecSupp : ∀ dm a2 r d2, Support cw dm s →
      recurse dm a2 = some (r, d2) → Support cw d2 s)
    (hrecSub : ∀ dm a2 r d2, recurse dm a2 = some (r, d2) →
      ∀ u, d2 u ⊆ dm u) :
    ∀ (cs : List Word) (d : Domains V), Support cw d s → DomSub cw d →
      s var ∈ cs →
      ∃ r d2, try_values cw recurse var a cs d = some (some r, d2) := by
  intro cs
  induction cs with
  | nil => intro d _ _ hmem; cases hmem
  | cons value rest ih =>
    intro d hsup hdsub hmem
    obtain ⟨dm, hac3, hsupm⟩ :=
      ac3_support_some cw s ((neighbors cw var).map (fun n => (n, var))) d
        hsol (arcsOK_neighbor_arcs cw var hvar) hsup
    have hdmsub : DomSub cw dm := fun u =>
      List.Subset.trans (ac3_subset cw _ d true dm hac3 u) (hdsub u)
    by_cases hv : value = s var
    · -- trying the solution's own word: this branch succeeds
      subst hv
      have hcompnew : Compat cw (dictInsert a var (s var)) s :=
        compat_dictInsert cw s a var hvar hcomp
      have hcons : consistent cw (dictInsert a var (s var)) = true :=
        consistent_of_compat cw s _ hsol hcompnew
          (keys_nodup_dictInsert a var (s var) hnd hvnk)
      have hg : (consistent cw (dictInsert a var (s var)) && true) = true := by
        rw [hcons]
        rfl
      obtain ⟨r, d2, hrc⟩ := hrecC dm hsupm hdmsub
      have hrlen : 0 < r.length := by
        have h1 := hrecLen dm _ r d2 hrc
        have h2 := length_dictInsert_of_not_mem a var (s var) hvnk
        omega
      refine ⟨r, d2, ?_⟩
      rw [try_values_cons_rec_some cw recurse var a (s var) rest d true dm
        (some r) d2 hac3 hg hrc]
      rw [if_pos (pyTruthy_some_of_pos r hrlen)]
    · have hmem2 : s var ∈ rest := by
        rcases List.mem_cons.mp hmem with he | hm
        · exact absurd he.symm hv
        · exact hm
      cases hg : (consistent cw (dictInsert a var value) && true) with
      | false =>
        rw [try_values_cons_guard_false cw recurse var a value rest d true dm
          hac3 hg]
        exact ih dm hsupm hdmsub hmem2
      | true =>
        cases hrc : recurse dm (dictInsert a var value) with
        | none =>
          exfalso
          have := hrecN dm value
          rw [hrc] at this
          cases this
        | some q =>
          obtain ⟨result, d3⟩ := q
          have hsup3 : Support cw d3 s := hrecSupp dm _ result d3 hsupm hrc
          rw [try_values_cons_rec_some cw recurse var a value rest d true dm
            result d3 hac3 hg hrc]
          by_cases ht : pyTruthy result = true
          · rw [if_pos ht]
            obtain ⟨l, rfl, -⟩ := pyTruthy_elim result ht
            exact ⟨l, d3, rfl⟩
          · rw [if_neg ht]
            have hd3sub : DomSub cw d3 := fun u =>
              List.Subset.trans (hrecSub dm _ result d3 hrc u) (hdmsub u)
            exact ih d3 hsup3 hd3sub hmem2

theorem backtrack_fuel_complete (cw : Crossword V) (s : V → Word)
    (hsol : Sol cw s) :
    ∀ (fuel : Nat) (d : Domains V) (a : Assignment V),
      Support cw d s → Compat cw a s → (keys a).Nodup → DomSub cw d →
      unassignedLen cw a + 1 ≤ fuel →
      ∃ r d2, backtrack_fuel cw fuel d a = some (some r, d2) := by
  intro fuel
  induction fuel with
  | zero => intro d a _ _ _ _ hb; omega
  | succ n ih =>
    intro d a hsup hcomp hnd hdsub hb
    cases hc : assignment_complete cw a with
    | true => exact ⟨a, d, backtrack_fuel_succ_complete cw n d a hc⟩
    | false =>
      have hkeys : ∀ v ∈ keys a, v ∈ cw.vars := by
        intro v hv
        obtain ⟨w, hw⟩ := (mem_keys_iff a v).mp hv
        exact (hcomp (v, w) hw).1
      cases hsel : select_unassigned_variable cw d a with
      | none =>
        exfalso
        have hall := select_none_all_assigned cw d a hsel
        have : assignment_complete cw a = true :=
          (assignment_complete_iff cw a).mpr ⟨hkeys, hall⟩
        rw [hc] at this
        cases this
      | some var =>
        obtain ⟨hvv, hvnk⟩ := select_some_mem cw d a var hsel
        rw [backtrack_fuel_succ_sel_some cw n d a var hc hsel]
        have hfuel2 : ∀ (w : Word),
            unassignedLen cw (dictInsert a var w) + 1 ≤ n := by
          intro w
          have := unassignedLen_dictInsert_lt cw a var w hvv hvnk
          omega
        have hkeys2 : ∀ (w : Word), ∀ v ∈ keys (dictInsert a var w),
            v ∈ cw.vars := by
          intro w v hv
          rw [keys_dictInsert_of_not_mem a var w hvnk] at hv
          rcases List.mem_append.mp hv with hv1 | hv1
          · exact hkeys v hv1
          · rw [List.mem_singleton.mp hv1]
            exact hvv
        apply try_values_complete cw s (backtrack_fuel cw n) var a hsol hvv
          hvnk hcomp hnd
        · -- completeness of the recursive call on the solution branch
          intro dm hsupm hdsubm
          exact ih dm (dictInsert a var (s var)) hsupm
            (compat_dictInsert cw s a var hvv hcomp)
            (keys_nodup_dictInsert a var (s var) hnd hvnk) hdsubm (hfuel2 _)
        · -- the recursive call never raises nor exhausts fuel
          intro dm w
          exact backtrack_fuel_isSome cw n dm (dictInsert a var w)
            (hkeys2 w) (hfuel2 w)
        · intro dm a2 r d2 hh
          exact backtrack_fuel_len cw n dm a2 r d2 hh
        · intro dm a2 r d2 hs hh
          exact backtrack_fuel_support cw s hsol n dm a2 r d2 hs hh
        · intro dm a2 r d2 hh
          exact backtrack_fuel_domsub cw n dm a2 r d2 hh
        · exact hsup
        · exact hdsub
        · rw [order_domain_values_mem]
          exact hsup var hvv

/-! ## The heap model: `backtrack` never mutates existing dict cells -/

theorem storeGet_append (st : Store V) (x : Assignment V) (i : Nat)
    (h : i < st.length) : storeGet (st ++ [x]) i = storeGet st i :=
  List.getD_append st [x] [] i h

theorem storeGet_set_ne (st : Store V) (j : Nat) (v : Assignment V) (i : Nat)
    (h : j ≠ i) : storeGet (st.set j v) i = storeGet st i := by
  unfold storeGet
  rw [List.getD_eq_getElem?_getD, List.getD_eq_getElem?_getD,
    List.getElem?_set_ne h]

/-- The candidate loop of the heap model allocates fresh cells and mutates
only those: every dict cell that existed at entry is unchanged at exit. -/
theorem try_values_st_frame (cw : Crossword V)
    (recurse : Store V → Domains V → Nat → Option (Option Nat × Domains V × Store V))
    (var : V) (ref : Nat)
    (hrec : ∀ st2 dd rr res2, recurse st2 dd rr = some res2 →
      st2.length ≤ res2.2.2.length ∧
      ∀ i, i < st2.length → storeGet res2.2.2 i = storeGet st2 i) :
    ∀ (cs : List Word) (st : Store V) (d : Domains V)
      (res : Option Nat × Domains V × Store V),
      try_values_st cw recurse var ref cs st d = some res →
      st.length ≤ res.2.2.length ∧
      ∀ i, i < st.length → storeGet res.2.2 i = storeGet st i := by
  intro cs
  induction cs with
  | nil =>
    intro st d res h
    simp only [try_values_st, Option.some.injEq] at h
    rw [← h]
    exact ⟨Nat.le_refl _, fun i _ => rfl⟩
  | cons value rest ih =>
    intro st d res h
    simp only [try_values_st] at h
    cases hac3 : ac3 cw (some ((neighbors cw var).map (fun n => (n, var)))) d with
    | none => rw [hac3] at h; cases h
    | some p =>
      obtain ⟨inf, dm⟩ := p
      simp only [hac3] at h
      have hget1 : ∀ i, i < st.length →
          storeGet (st ++ [dictInsert (storeGet st ref) var value]) i =
            storeGet st i :=
        fun i hi => storeGet_append st _ i hi
      have hlen1 : (st ++ [dictInsert (storeGet st ref) var value]).length =
          st.length + 1 := by simp
      cases hg : (consistent cw
          (storeGet (st ++ [dictInsert (storeGet st ref) var value])
            st.length) && inf) with
      | false =>
        rw [hg, if_neg Bool.false_ne_true] at h
        obtain ⟨hl, hp⟩ := ih _ dm res h
        constructor
        · omega
        · intro i hi
          rw [hp i (by omega), hget1 i hi]
      | true =>
        rw [hg, if_pos rfl] at h
        cases hrc : recurse (st ++ [dictInsert (storeGet st ref) var value])
            dm st.length with
        | none => rw [hrc] at h; cases h
        | some res2 =>
          obtain ⟨result, d3, st2⟩ := res2
          simp only [hrc] at h
          obtain ⟨hl2, hp2⟩ := hrec _ dm st.length (result, d3, st2) hrc
          have hl2b : (st ++ [dictInsert (storeGet st ref) var value]).length ≤
              st2.length := by simpa using hl2
          have hp2b : ∀ i, i < (st ++ [dictInsert (storeGet st ref) var
              value]).length → storeGet st2 i =
              storeGet (st ++ [dictInsert (storeGet st ref) var value]) i := by
            simpa using hp2
          by_cases ht : pyTruthyRef st2 result = true
          · rw [if_pos ht] at h
            obtain rfl := (Option.some.inj h).symm
            constructor
            · simp only
              omega
            · intro i hi
              simp only
              rw [hp2b i (by omega), hget1 i hi]
          · rw [if_neg ht] at h
            obtain ⟨hl3, hp3⟩ := ih _ d3 res h
            have hlset : (st2.set st.length
                (dictPop (storeGet st2 st.length) var)).length = st2.length :=
              List.length_set st2 _ _
            constructor
            · omega
            · intro i hi
              rw [hp3 i (by omega)]
              rw [storeGet_set_ne st2 st.length _ i (by omega)]
              rw [hp2b i (by omega), hget1 i hi]

/-- C10: `backtrack(assignment)` never mutates the dict passed to it.  In
the heap model, after any completed call every dict cell that existed when
the call began — in particular the caller's `assignment` — holds exactly
the entries it held before: all tentative extensions and the
`new_assignment.pop(var, None)` act on freshly allocated copies. -/
theorem c10_backtrack_preserves_caller_dict (cw : Crossword V) :
    ∀ (fuel : Nat) (st : Store V) (d : Domains V) (ref : Nat)
      (res : Option Nat × Domains V × Store V),
      backtrack_st cw fuel st d ref = some res →
      st.length ≤ res.2.2.length ∧
      ∀ i, i < st.length → storeGet res.2.2 i = storeGet st i := by
  intro fuel
  induction fuel with
  | zero => intro st d ref res h; cases h
  | succ n ih =>
    intro st d ref res h
    simp only [backtrack_st] at h
    cases hc : assignment_complete cw (storeGet st ref) with
    | true =>
      rw [hc, if_pos rfl] at h
      simp only [Option.some.injEq] at h
      rw [← h]
      exact ⟨Nat.le_refl _, fun i _ => rfl⟩
    | false =>
      rw [hc, if_neg Bool.false_ne_true] at h
      cases hsel : select_unassigned_variable cw d (storeGet st ref) with
      | none => rw [hsel] at h; cases h
      | some var =>
        simp only [hsel] at h
        exact try_values_st_frame cw (backtrack_st cw n) var ref
          (fun st2 dd rr res2 hh => ih st2 dd rr res2 hh) _ st d res h

/-! ## Putting `solve` together -/

theorem consistent_nil (cw : Crossword V) :
    consistent cw ([] : Assignment V) = true := rfl

theorem keys_nil : keys ([] : Assignment V) = [] := rfl

theorem unassignedLen_nil (cw : Crossword V) :
    unassignedLen cw ([] : Assignment V) = cw.vars.length := by
  unfold unassignedLen
  have he : (cw.vars.filter (fun v => !(keys ([] : Assignment V)).contains v)) =
      cw.vars :=
    List.filter_eq_self.mpr (fun v _ => rfl)
  rw [he]

theorem enforce_domsub (cw : Crossword V) :
    DomSub cw (enforce_node_consistency cw (initialDomains cw)) := by
  intro v w hw
  exact (List.mem_filter.mp hw).1

theorem enforce_support (cw : Crossword V) (s : V → Word) (hsol : Sol cw s) :
    Support cw (enforce_node_consistency cw (initialDomains cw)) s := by
  intro v hv
  apply List.mem_filter.mpr
  exact ⟨(hsol.1 v hv).1, beq_iff_eq.mpr (hsol.1 v hv).2⟩

theorem solve_full_eq_backtrack (cw : Crossword V) (b : Bool) (dp : Domains V)
    (hac3 : ac3 cw none (enforce_node_consistency cw (initialDomains cw)) =
      some (b, dp)) :
    solve_full cw = backtrack cw dp [] := by
  simp only [solve_full, hac3]

theorem pre_search_domains_eq (cw : Crossword V) (b : Bool) (dp : Domains V)
    (hac3 : ac3 cw none (enforce_node_consistency cw (initialDomains cw)) =
      some (b, dp)) :
    pre_search_domains cw = some dp := by
  simp only [pre_search_domains, hac3]
  rfl

theorem solve_full_isSome (cw : Crossword V) :
    ∀ b dp, ac3 cw none (enforce_node_consistency cw (initialDomains cw)) =
      some (b, dp) → (solve_full cw).isSome = true := by
  intro b dp hac3
  rw [solve_full_eq_backtrack cw b dp hac3]
  unfold backtrack
  apply backtrack_fuel_isSome cw (cw.vars.length + 1)
  · intro v hv
    rw [keys_nil] at hv
    cases hv
  · rw [unassignedLen_nil]

/-! ## The claims -/

/-- C1: In backtracking search, for every candidate value tried for a
variable whose branch fails, the domain store `self.domains` after that
candidate branch is identical to its state before the branch: domain
mutations performed by the localized arc-consistency inference inside the
branch are not visible to sibling branches or after backtracking.  First
conjunct: on an arc-consistent store — which is what `solve`'s global
`ac3()` pass establishes before the search starts — every call to
`backtrack` (hence every candidate branch and every recursive sub-branch,
each of which is itself such a call) returns the store it received,
unchanged.  Second conjunct: composing with `solve`, the store after the
whole search equals the store just before the search (if global `ac3`
failed early instead, the search returns `None` before trying any
candidate, so no branch ever observes a mutation either way). -/
theorem c1_branch_confined_domains (cw : Crossword V) :
    (∀ (fuel : Nat) (d : Domains V) (a : Assignment V)
      (r : Option (Assignment V)) (d2 : Domains V),
      ArcConsistentD cw d → backtrack_fuel cw fuel d a = some (r, d2) →
      d2 = d) ∧
    (∀ (r : Option (Assignment V)) (d2 : Domains V),
      solve_full cw = some (r, d2) → pre_search_domains cw = some d2) := by
  constructor
  · intro fuel d a r d2 hacd h
    exact backtrack_fuel_frame cw fuel d a r d2 hacd h
  · intro r d2 h
    cases hac3 : ac3 cw none (enforce_node_consistency cw (initialDomains cw)) with
    | none =>
      rw [show solve_full cw = none by simp only [solve_full, hac3]] at h
      cases h
    | some p =>
      obtain ⟨b, dp⟩ := p
      rw [solve_full_eq_backtrack cw b dp hac3] at h
      rw [pre_search_domains_eq cw b dp hac3]
      unfold backtrack at h
      cases b with
      | true =>
        have hacd : ArcConsistentD cw dp := ac3_none_true_ACD cw _ dp hac3
        rw [backtrack_fuel_frame cw _ dp [] r d2 hacd h]
      | false =>
        obtain ⟨x, hxv, hxe⟩ := ac3_false_empty cw none _ dp
          (fun l hl => Option.noConfusion hl) hac3
        rw [backtrack_fuel_empty_none cw cw.vars.length dp [] x hxv
          (by rw [keys_nil]; exact List.not_mem_nil x) hxe] at h
        simp only [Option.some.injEq, Prod.mk.injEq] at h
        rw [h.2]

/-- C2: if `solve()` returns a value other than `None`, that value is a
complete assignment (it maps every variable of the structure to a word)
and it satisfies `consistent()`. -/
theorem c2_solve_sound (cw : Crossword V) (r : Assignment V)
    (h : solve cw = some (some r)) :
    assignment_complete cw r = true ∧ consistent cw r = true := by
  unfold solve at h
  cases hfull : solve_full cw with
  | none => rw [hfull] at h; cases h
  | some p =>
    obtain ⟨rr, d2⟩ := p
    rw [hfull] at h
    have h2 : rr = some r := Option.some.inj h
    subst h2
    cases hac3 : ac3 cw none (enforce_node_consistency cw (initialDomains cw)) with
    | none =>
      rw [show solve_full cw = none by simp only [solve_full, hac3]] at hfull
      cases hfull
    | some p2 =>
      obtain ⟨b, dp⟩ := p2
      rw [solve_full_eq_backtrack cw b dp hac3] at hfull
      unfold backtrack at hfull
      have hdp : DomSub cw dp := fun v =>
        List.Subset.trans (ac3_subset cw none _ b dp hac3 v)
          (enforce_domsub cw v)
      obtain ⟨hcomp, hcons, -⟩ := backtrack_fuel_sound cw _ dp [] r d2
        (consistent_nil cw) (fun p hp => absurd hp (List.not_mem_nil p))
        hdp hfull
      exact ⟨hcomp, hcons⟩

/-- C3: if some complete assignment exists giving every variable a
vocabulary word of matching length, with pairwise-distinct words and all
overlap constraints satisfied, then `solve()` returns such an assignment
rather than `None`. -/
theorem c3_solve_completeness (cw : Crossword V) (h : ∃ s, Sol cw s) :
    ∃ r, solve cw = some (some r) ∧ assignment_complete cw r = true ∧
      consistent cw r = true ∧ ∀ p ∈ r, p.2 ∈ cw.words := by
  obtain ⟨s, hsol⟩ := h
  have hsup1 : Support cw (enforce_node_consistency cw (initialDomains cw)) s :=
    enforce_support cw s hsol
  obtain ⟨dp, hac3, hsupp⟩ := ac3_support_none cw s _ hsol hsup1
  have hdp : DomSub cw dp := fun v =>
    List.Subset.trans (ac3_subset cw none _ true dp hac3 v)
      (enforce_domsub cw v)
  obtain ⟨r, d2, heq⟩ := backtrack_fuel_complete cw s hsol
    (cw.vars.length + 1) dp [] hsupp
    (fun p hp => absurd hp (List.not_mem_nil p)) List.nodup_nil hdp
    (by rw [unassignedLen_nil])
  obtain ⟨hcomp, hcons, hval⟩ := backtrack_fuel_sound cw _ dp [] r d2
    (consistent_nil cw) (fun p hp => absurd hp (List.not_mem_nil p)) hdp heq
  refine ⟨r, ?_, hcomp, hcons, hval⟩
  unfold solve
  rw [solve_full_eq_backtrack cw true dp hac3]
  unfold backtrack
  rw [heq]
  rfl

/-- C7: if some variable's length equals the length of no vocabulary word,
`solve()` returns `None` — an explicit failure value, with no exception
raised anywhere in the solve (`some none`: the outer `some` is the absence
of an exception, the inner `none` is Python's `None`). -/
theorem c7_unmatchable_length_fails (cw : Crossword V)
    (h : ∃ v ∈ cw.vars, ∀ w ∈ cw.words, w.length ≠ cw.length v) :
    solve cw = some none := by
  obtain ⟨v, hv, hlen⟩ := h
  have hd1 : enforce_node_consistency cw (initialDomains cw) v = [] := by
    apply List.filter_eq_nil_iff.mpr
    intro w hw
    intro hb
    exact hlen w hw (by simpa using hb)
  cases hac3 : ac3 cw none (enforce_node_consistency cw (initialDomains cw)) with
  | none =>
    exfalso
    have := ac3_none_isSome cw (enforce_node_consistency cw (initialDomains cw))
    rw [hac3] at this
    cases this
  | some p =>
    obtain ⟨b, dp⟩ := p
    have hdpv : dp v = [] := by
      have hsub := ac3_subset cw none _ b dp hac3 v
      rw [hd1] at hsub
      exact List.eq_nil_iff_forall_not_mem.mpr
        (fun w hw => List.not_mem_nil w (hsub hw))
    unfold solve
    rw [solve_full_eq_backtrack cw b dp hac3]
    unfold backtrack
    rw [backtrack_fuel_empty_none cw cw.vars.length dp [] v hv
      (by rw [keys_nil]; exact List.not_mem_nil v) hdpv]
    rfl

/-- C4 (counterexample): for the non-intersecting pair `(0, 1)` of `cwC`,
`revise` does not return at all — the unpacking of the absent overlap
raises a `TypeError` (result `none` in the embedding) — contradicting the
claim that it returns `False` without raising. -/
theorem c4_counterexample_revise_raises :
    (revise cwC dC 0 1).isSome = false := rfl

/-- C4 (amended): for every pair of variables that do not intersect,
`revise(x, y)` raises a `TypeError` while unpacking the `None` overlap
(embedded as the result `none`) instead of returning `False`; it leaves no
result at all.  (`ac3` only ever calls `revise` on intersecting pairs, so
the exception is unreachable from `solve`.) -/
theorem c4_revise_nonintersecting_raises (cw : Crossword V) (d : Domains V)
    (x y : V) (h : cw.overlaps x y = none) : revise cw d x y = none := by
  unfold revise
  rw [h]

/-- C4 witness: the amended claim applied to the concrete non-intersecting
pair of `cwC`. -/
theorem c4_witness : revise cwC dC 0 1 = none :=
  c4_revise_nonintersecting_raises cwC dC 0 1 rfl

/-- C5 (evaluation at the failing input): on `cwD` with the empty
assignment, all three variables are unassigned with equal domain sizes, yet
`select_unassigned_variable` returns variable 0, which has strictly fewer
structural neighbors than the tied variable 1 — the code sorts only by
domain size and ignores the degree tie-break promised by its own
docstring. -/
theorem c5_select_ignores_degree :
    assignment_complete cwD ([] : Assignment (Fin 3)) = false ∧
    select_unassigned_variable cwD dD [] = some 0 ∧
    (dD 0).length = (dD 1).length ∧
    (neighbors cwD 0).length < (neighbors cwD 1).length := by decide

/-- C6: if `ac3()` called with no initial arcs returns `True`, then for
every pair of variables `(x, y)` overlapping at indices `(i, j)`, every
word remaining in `domain[x]` agrees with some word remaining in
`domain[y]` at those indices. -/
theorem c6_ac3_enforces_arc_consistency (cw : Crossword V) (d d2 : Domains V)
    (h : ac3 cw none d = some (true, d2)) :
    ∀ x ∈ cw.vars, ∀ y ∈ cw.vars, ∀ i j, cw.overlaps x y = some (i, j) →
      ∀ w ∈ d2 x, ∃ w2 ∈ d2 y, charAt w i = charAt w2 j := by
  intro x hx y hy i j ho w hw
  exact ac3_none_true_ACD cw d d2 h x hx y hy (i, j)
    (Option.mem_def.mpr ho) w hw

/-- C8: after `enforce_node_consistency()` runs, a word is in a variable's
domain exactly when it was there before with length equal to the
variable's length — so the surviving words all satisfy the length
constraint and the removed words are exactly those that violate it. -/
theorem c8_node_consistency_exact (cw : Crossword V) (d : Domains V) (v : V)
    (w : Word) :
    w ∈ enforce_node_consistency cw d v ↔
      w ∈ d v ∧ w.length = cw.length v := by
  unfold enforce_node_consistency
  rw [List.mem_filter]
  constructor
  · rintro ⟨h1, h2⟩
    exact ⟨h1, by simpa using h2⟩
  · rintro ⟨h1, h2⟩
    exact ⟨h1, by simpa using h2⟩

/-- C9: `order_domain_values` returns exactly the words of the variable's
domain (a permutation of it), in ascending order of the
`count_conflicts` score — the number of words of unassigned structural
neighbors that clash at the shared overlap indices. -/
theorem c9_order_domain_values_sorted (cw : Crossword V) (d : Domains V)
    (var : V) (a : Assignment V) :
    (order_domain_values cw d var a).Perm (d var) ∧
    (order_domain_values cw d var a).Pairwise (fun w1 w2 =>
      count_conflicts cw d a var w1 ≤ count_conflicts cw d a var w2) := by
  constructor
  · exact order_domain_values_perm cw d var a
  · unfold order_domain_values
    haveI : IsTotal Word (fun w1 w2 => count_conflicts cw d a var w1 ≤
        count_conflicts cw d a var w2) :=
      ⟨fun w1 w2 => Nat.le_total _ _⟩
    haveI : IsTrans Word (fun w1 w2 => count_conflicts cw d a var w1 ≤
        count_conflicts cw d a var w2) :=
      ⟨fun w1 w2 w3 h1 h2 => Nat.le_trans h1 h2⟩
    exact List.sorted_insertionSort _ (d var)

/-- C1 witness: on the concrete arc-consistent store `dA` of `cwA`, a full
backtracking run returns a result and the store is unchanged. -/
theorem c1_witness :
    (backtrack_fuel cwA 3 dA []).elim False (fun p => p.2 = dA) := by
  cases hh : backtrack_fuel cwA 3 dA [] with
  | none =>
    have hx : (backtrack_fuel cwA 3 dA []).isSome = true := by decide
    rw [hh] at hx
    exact Bool.noConfusion hx
  | some p =>
    obtain ⟨r, d2⟩ := p
    exact (c1_branch_confined_domains cwA).1 3 dA [] r d2 (by decide) hh

/-- C2 witness: `solve` on the concrete solvable crossword `cwA` returns a
complete, consistent assignment. -/
theorem c2_witness : ∃ r, solve cwA = some (some r) ∧
    assignment_complete cwA r = true ∧ consistent cwA r = true := by
  cases hh : solve cwA with
  | none => exact absurd hh (by decide)
  | some ro =>
    cases ro with
    | none => exact absurd hh (by decide)
    | some r =>
      exact ⟨r, rfl, (c2_solve_sound cwA r hh).1, (c2_solve_sound cwA r hh).2⟩

/-- C3 witness: `cwA` has the concrete satisfying assignment `sA`, so
`solve` succeeds on it. -/
theorem c3_witness : ∃ r, solve cwA = some (some r) ∧
    assignment_complete cwA r = true ∧ consistent cwA r = true ∧
    ∀ p ∈ r, p.2 ∈ cwA.words :=
  c3_solve_completeness cwA ⟨sA, by decide⟩

/-- C6 witness: on `cwA` from the full vocabulary, `ac3()` returns `True`
and the word `TEN` of variable 0 indeed has an overlap partner left in the
domain of variable 1. -/
theorem c6_witness :
    (ac3 cwA none dA).elim False (fun p =>
      ∃ w2 ∈ p.2 1, charAt wTEN 2 = charAt w2 0) := by
  cases hh : ac3 cwA none dA with
  | none =>
    have hx := ac3_none_isSome cwA dA
    rw [hh] at hx
    exact Bool.noConfusion hx
  | some p =>
    obtain ⟨b, d2⟩ := p
    have hb : b = true := by
      have ht : (ac3 cwA none dA).map Prod.fst = some true := by decide
      rw [hh] at ht
      have ht2 : some b = some true := ht
      exact Option.some.inj ht2
    subst hb
    have hmem : wTEN ∈ d2 0 := by
      have ht : (ac3 cwA none dA).map (fun p => p.2 0) = some [wTEN, wNET] := by
        decide
      rw [hh] at ht
      have ht2 : some (d2 0) = some [wTEN, wNET] := ht
      rw [Option.some.inj ht2]
      exact List.mem_cons_self _ _
    exact c6_ac3_enforces_arc_consistency cwA dA d2 hh 0 (by decide) 1
      (by decide) 2 0 (by decide) wTEN hmem

/-- C7 witness: `cwB`'s only variable has length 1 while the only
vocabulary word has length 2, and `solve` returns the explicit failure. -/
theorem c7_witness : solve cwB = some none :=
  c7_unmatchable_length_fails cwB ⟨0, by decide, by decide⟩

/-- C10 witness: running the heap-model `backtrack` on `cwA` from an empty
caller dict leaves that dict empty after the call. -/
theorem c10_witness :
    (backtrack_st cwA 3 [[]] dA 0).elim False
      (fun res => storeGet res.2.2 0 = []) := by
  cases hh : backtrack_st cwA 3 [[]] dA 0 with
  | none =>
    have hx : (backtrack_st cwA 3 [[]] dA 0).isSome = true := by decide
    rw [hh] at hx
    exact Bool.noConfusion hx
  | some res =>
    have hfr := (c10_backtrack_preserves_caller_dict cwA 3 [[]] dA 0 res hh).2
      0 (by decide)
    exact hfr.trans rfl

end CrosswordCSP